import Mathlib

/-!
Verification of the structural JSON diffing and category-tree editing
primitives of the dd-migration repository.

Python dictionaries are modelled as association lists (`List (String × β)`)
whose entries appear in insertion order, mirroring the ordered dictionaries of CPython.  A well-formedness predicate records the facts that are
automatic in Python (keys of a dictionary are pairwise distinct).  Python
assignment `m[k] = v` replaces the value of the existing binding in place
(keeping its position) or appends a fresh binding at the end; `del m[k]`
removes the binding; both are modelled below by `dictSet` and `dictErase`.
-/

namespace DDMigration

/-- First-match lookup in an association list, as Python `m[k]` / `m.get(k)`. -/
def lookupD {β : Type} : List (String × β) → String → Option β
  | [], _ => none
  | (k, v) :: rest, key => if k = key then some v else lookupD rest key

/-- Membership test, as Python `k in m`. -/
def containsD {β : Type} (m : List (String × β)) (key : String) : Bool :=
  (lookupD m key).isSome

/-- Python assignment `m[k] = v`: replace the first binding of `k` in place,
or append a fresh binding at the end when `k` is absent. -/
def dictSet {β : Type} : List (String × β) → String → β → List (String × β)
  | [], key, v => [(key, v)]
  | (k, w) :: rest, key, v =>
      if k = key then (key, v) :: rest else (k, w) :: dictSet rest key v

/-- Python `del m[k]`: drop the first binding of `k`. -/
def dictErase {β : Type} : List (String × β) → String → List (String × β)
  | [], _ => []
  | (k, w) :: rest, key => if k = key then rest else (k, w) :: dictErase rest key

theorem lookupD_nil {β : Type} (key : String) : lookupD ([] : List (String × β)) key = none := rfl

theorem lookupD_cons {β : Type} (k : String) (v : β) (rest : List (String × β)) (key : String) :
    lookupD ((k, v) :: rest) key = if k = key then some v else lookupD rest key := rfl

theorem lookupD_dictSet_self {β : Type} (m : List (String × β)) (key : String) (v : β) :
    lookupD (dictSet m key v) key = some v := by
  induction m with
  | nil => simp [dictSet, lookupD]
  | cons hd tl ih =>
      obtain ⟨k, w⟩ := hd
      by_cases h : k = key
      · simp [dictSet, lookupD, h]
      · simp [dictSet, lookupD, h, ih]

theorem lookupD_dictSet_ne {β : Type} (m : List (String × β)) (key other : String) (v : β)
    (h : other ≠ key) : lookupD (dictSet m key v) other = lookupD m other := by
  induction m with
  | nil => simp [dictSet, lookupD, Ne.symm h]
  | cons hd tl ih =>
      obtain ⟨k, w⟩ := hd
      by_cases hk : k = key
      · subst hk
        simp [dictSet, lookupD, Ne.symm h]
      · simp [dictSet, lookupD, hk, ih]

theorem lookupD_dictErase_ne {β : Type} (m : List (String × β)) (key other : String)
    (h : other ≠ key) : lookupD (dictErase m key) other = lookupD m other := by
  induction m with
  | nil => simp [dictErase]
  | cons hd tl ih =>
      obtain ⟨k, w⟩ := hd
      by_cases hk : k = key
      · subst hk
        simp [dictErase, lookupD, Ne.symm h]
      · simp [dictErase, lookupD, hk, ih]

theorem lookupD_append {β : Type} (m₁ m₂ : List (String × β)) (key : String) :
    lookupD (m₁ ++ m₂) key =
      match lookupD m₁ key with
      | some v => some v
      | none => lookupD m₂ key := by
  induction m₁ with
  | nil => simp [lookupD]
  | cons hd tl ih =>
      obtain ⟨k, w⟩ := hd
      by_cases hk : k = key
      · simp [lookupD, hk]
      · simp [lookupD, hk, ih]

theorem lookupD_append_single_self {β : Type} (m : List (String × β)) (key : String) (v : β)
    (h : lookupD m key = none) : lookupD (m ++ [(key, v)]) key = some v := by
  rw [lookupD_append, h]
  simp [lookupD]

theorem lookupD_append_single_ne {β : Type} (m : List (String × β)) (key other : String) (v : β)
    (h : other ≠ key) : lookupD (m ++ [(key, v)]) other = lookupD m other := by
  rw [lookupD_append]
  cases hm : lookupD m other with
  | some w => rfl
  | none => simp [lookupD, Ne.symm h]

theorem dictSet_self_of_lookupD {β : Type} (m : List (String × β)) (key : String) (v : β)
    (h : lookupD m key = some v) : dictSet m key v = m := by
  induction m with
  | nil => simp [lookupD] at h
  | cons hd tl ih =>
      obtain ⟨k, w⟩ := hd
      by_cases hk : k = key
      · subst hk
        simp [lookupD] at h
        simp [dictSet, h]
      · simp [lookupD, hk] at h
        simp [dictSet, hk, ih h]

theorem dictSet_dictSet {β : Type} (m : List (String × β)) (key : String) (v w : β) :
    dictSet (dictSet m key v) key w = dictSet m key w := by
  induction m with
  | nil => simp [dictSet]
  | cons hd tl ih =>
      obtain ⟨k, u⟩ := hd
      by_cases hk : k = key
      · simp [dictSet, hk]
      · simp [dictSet, hk, ih]

theorem dictErase_append_single {β : Type} (m : List (String × β)) (key : String) (v : β)
    (h : lookupD m key = none) : dictErase (m ++ [(key, v)]) key = m := by
  induction m with
  | nil => simp [dictErase]
  | cons hd tl ih =>
      obtain ⟨k, w⟩ := hd
      by_cases hk : k = key
      · simp [lookupD, hk] at h
      · simp [lookupD, hk] at h
        simp [dictErase, hk, ih h]

/-- Keys of an association list, in order. -/
def keysOf {β : Type} (m : List (String × β)) : List String := m.map (fun p => p.1)

theorem keysOf_dictSet_of_contains {β : Type} (m : List (String × β)) (key : String) (v : β)
    (h : containsD m key = true) : keysOf (dictSet m key v) = keysOf m := by
  induction m with
  | nil => simp [containsD, lookupD] at h
  | cons hd tl ih =>
      obtain ⟨k, w⟩ := hd
      by_cases hk : k = key
      · simp [dictSet, hk, keysOf]
      · have h2 : containsD tl key = true := by
          simpa [containsD, lookupD, hk] using h
        simp [dictSet, hk, keysOf] at ih ⊢
        exact ih h2

theorem keysOf_dictSet_of_not_contains {β : Type} (m : List (String × β)) (key : String) (v : β)
    (h : containsD m key = false) : keysOf (dictSet m key v) = keysOf m ++ [key] := by
  induction m with
  | nil => simp [dictSet, keysOf]
  | cons hd tl ih =>
      obtain ⟨k, w⟩ := hd
      by_cases hk : k = key
      · simp [containsD, lookupD, hk] at h
      · have h2 : containsD tl key = false := by
          simpa [containsD, lookupD, hk] using h
        simp [dictSet, hk, keysOf] at ih ⊢
        exact ih h2

theorem dictErase_sublist {β : Type} (m : List (String × β)) (key : String) :
    (dictErase m key).Sublist m := by
  induction m with
  | nil => simp [dictErase]
  | cons hd tl ih =>
      obtain ⟨k, w⟩ := hd
      by_cases hk : k = key
      · subst hk
        simp only [dictErase, if_pos rfl]
        exact List.sublist_cons_self _ tl
      · simpa [dictErase, hk] using List.Sublist.cons₂ (k, w) ih

theorem keysOf_sublist_of_sublist {β : Type} {m₁ m₂ : List (String × β)} (h : m₁.Sublist m₂) :
    (keysOf m₁).Sublist (keysOf m₂) := List.Sublist.map _ h

theorem keysOf_cons {β : Type} (k : String) (v : β) (tl : List (String × β)) :
    keysOf ((k, v) :: tl) = k :: keysOf tl := rfl

theorem not_contains_of_lookupD_none {β : Type} {m : List (String × β)} {key : String}
    (h : lookupD m key = none) : key ∉ keysOf m := by
  induction m with
  | nil => simp [keysOf]
  | cons hd tl ih =>
      obtain ⟨k, w⟩ := hd
      rw [keysOf_cons]
      by_cases hk : k = key
      · simp [lookupD, hk] at h
      · simp [lookupD, hk] at h
        intro hmem
        rcases List.mem_cons.mp hmem with h1 | h1
        · exact hk h1.symm
        · exact ih h h1

theorem lookupD_none_of_not_mem_keys {β : Type} {m : List (String × β)} {key : String}
    (h : key ∉ keysOf m) : lookupD m key = none := by
  induction m with
  | nil => rfl
  | cons hd tl ih =>
      obtain ⟨k, w⟩ := hd
      rw [keysOf_cons] at h
      have h1 : key ≠ k := fun hh => h (hh ▸ List.mem_cons_self k (keysOf tl))
      have h2 : key ∉ keysOf tl := fun hh => h (List.mem_cons_of_mem k hh)
      simp [lookupD, Ne.symm h1, ih h2]

theorem lookupD_isSome_of_mem_keys {β : Type} {m : List (String × β)} {key : String}
    (h : key ∈ keysOf m) : (lookupD m key).isSome := by
  induction m with
  | nil => simp [keysOf] at h
  | cons hd tl ih =>
      obtain ⟨k, w⟩ := hd
      rw [keysOf_cons] at h
      by_cases hk : k = key
      · simp [lookupD, hk]
      · rcases List.mem_cons.mp h with h1 | h1
        · exact absurd h1.symm hk
        · simp [lookupD, hk]
          exact ih h1

theorem lookupD_eq_of_mem_nodup {β : Type} {m : List (String × β)} {key : String} {v : β}
    (hmem : (key, v) ∈ m) (hnd : (keysOf m).Nodup) : lookupD m key = some v := by
  induction m with
  | nil => simp at hmem
  | cons hd tl ih =>
      obtain ⟨k, w⟩ := hd
      rw [keysOf_cons, List.nodup_cons] at hnd
      rcases List.mem_cons.mp hmem with h | h
      · have h1 : key = k ∧ v = w := by simpa using h
        obtain ⟨rfl, rfl⟩ := h1
        simp [lookupD]
      · have hkey : key ∈ keysOf tl := by
          simpa [keysOf] using List.mem_map_of_mem (fun p => p.1) h
        have hk : k ≠ key := by
          intro hh
          exact hnd.1 (hh ▸ hkey)
        simp [lookupD, hk]
        exact ih h hnd.2

theorem mem_of_lookupD_eq {β : Type} {m : List (String × β)} {key : String} {v : β}
    (h : lookupD m key = some v) : (key, v) ∈ m := by
  induction m with
  | nil => simp [lookupD] at h
  | cons hd tl ih =>
      obtain ⟨k, w⟩ := hd
      by_cases hk : k = key
      · subst hk
        simp [lookupD] at h
        simp [h]
      · simp [lookupD, hk] at h
        exact List.mem_cons_of_mem _ (ih h)

theorem mem_dictSet {β : Type} {m : List (String × β)} {key : String} {v : β} {p : String × β}
    (h : p ∈ dictSet m key v) : p ∈ m ∨ p = (key, v) := by
  induction m with
  | nil => simpa [dictSet] using h
  | cons hd tl ih =>
      obtain ⟨k, w⟩ := hd
      by_cases hk : k = key
      · simp [dictSet, hk] at h
        rcases h with h | h
        · exact Or.inr (by simp [h])
        · exact Or.inl (List.mem_cons_of_mem _ h)
      · simp [dictSet, hk] at h
        rcases h with h | h
        · exact Or.inl (by simp [h])
        · rcases ih h with h1 | h1
          · exact Or.inl (List.mem_cons_of_mem _ h1)
          · exact Or.inr h1

theorem dictSet_append_single {β : Type} (m : List (String × β)) (key : String) (v w : β)
    (h : lookupD m key = none) : dictSet (m ++ [(key, v)]) key w = m ++ [(key, w)] := by
  induction m with
  | nil => simp [dictSet]
  | cons hd tl ih =>
      obtain ⟨k, u⟩ := hd
      by_cases hk : k = key
      · simp [lookupD, hk] at h
      · simp [lookupD, hk] at h
        simp [dictSet, hk, ih h]

theorem keysOf_append_single {β : Type} (m : List (String × β)) (key : String) (v : β) :
    keysOf (m ++ [(key, v)]) = keysOf m ++ [key] := by
  simp [keysOf]

theorem lookupD_dictErase_self_nodup {β : Type} {m : List (String × β)} {key : String}
    (hnd : (keysOf m).Nodup) : lookupD (dictErase m key) key = none := by
  induction m with
  | nil => rfl
  | cons hd tl ih =>
      obtain ⟨k, w⟩ := hd
      rw [keysOf_cons, List.nodup_cons] at hnd
      by_cases hk : k = key
      · subst hk
        simp only [dictErase, if_pos rfl]
        exact lookupD_none_of_not_mem_keys hnd.1
      · simp [dictErase, lookupD, hk]
        exact ih hnd.2

theorem erase_append_singleton {l : List String} {a : String} (h : a ∉ l) :
    (l ++ [a]).erase a = l := by
  rw [List.erase_append_right _ (by simpa using h)]
  simp

/-! ### The category tree of the interactive graph editor

The editor state of the categorized visualizer is the JSON document
`{entity: {section: {category: [attribute, ...]}}}`; all operations work on
the sub-tree below the (unique) entity key, which is modelled here as
`EntityData`.
-/

abbrev AttrList := List String
abbrev CatsDict := List (String × AttrList)
abbrev EntityData := List (String × CatsDict)

/-- Well-formedness facts that hold for every tree a Python session can hold:
section names and category names are keys of Python dictionaries and hence
pairwise distinct, and attribute names are unique within a category (the
data-model invariant; the editor UI refuses duplicate additions). -/
def WFEntity (d : EntityData) : Prop :=
  (keysOf d).Nodup ∧ (∀ p ∈ d, (keysOf p.2).Nodup) ∧ (∀ p ∈ d, ∀ q ∈ p.2, q.2.Nodup)

instance (d : EntityData) : Decidable (WFEntity d) := by
  unfold WFEntity
  infer_instance

/-- First half of `move_attribute` (categorized_visualizer.py, the block under
the comment that removes the attribute from the old location): if the source
section and category exist and hold the attribute, remove its first occurrence
and drop the category when it became empty. -/
def removeFromOld (d : EntityData) (attributeName fromSection fromCategory : String) :
    EntityData :=
  match lookupD d fromSection with
  | none => d
  | some cats =>
      match lookupD cats fromCategory with
      | none => d
      | some attrs =>
          if attributeName ∈ attrs then
            let attrs2 := attrs.erase attributeName
            dictSet d fromSection
              (if attrs2.isEmpty then dictErase cats fromCategory
               else dictSet cats fromCategory attrs2)
          else d

/-- Second half of `move_attribute` (the block under the comment that adds the
attribute to the new location): create the destination section and category if
absent, then append the attribute unless already present. -/
def addToNew (d : EntityData) (attributeName toSection toCategory : String) : EntityData :=
  let d2 := if containsD d toSection then d else d ++ [(toSection, [])]
  let cats2 := (lookupD d2 toSection).getD []
  let d3 := if containsD cats2 toCategory then d2
            else dictSet d2 toSection (cats2 ++ [(toCategory, [])])
  let cats3 := (lookupD d3 toSection).getD []
  let attrs3 := (lookupD cats3 toCategory).getD []
  if attributeName ∈ attrs3 then d3
  else dictSet d3 toSection (dictSet cats3 toCategory (attrs3 ++ [attributeName]))

/-- Transcription of `move_attribute(data, attribute_name, from_section,
from_category, to_section, to_category)` from categorized_visualizer.py:
remove from the old location (if present there), then unconditionally ensure
the attribute is present at the destination. -/
def moveAttribute (d : EntityData) (attributeName fromSection fromCategory
    toSection toCategory : String) : EntityData :=
  addToNew (removeFromOld d attributeName fromSection fromCategory)
    attributeName toSection toCategory

/-- Does the tree hold `a` in the attribute list at section `s`, category `c`? -/
def attrAt (d : EntityData) (s c a : String) : Bool :=
  match lookupD d s with
  | none => false
  | some cats =>
      match lookupD cats c with
      | none => false
      | some attrs => attrs.contains a

/-- Effect of the removal half of `move_attribute` on the category dictionary
of the source section. -/
def gRem (a fc : String) (cats : CatsDict) : CatsDict :=
  match lookupD cats fc with
  | none => cats
  | some attrs =>
      if a ∈ attrs then
        if (attrs.erase a).isEmpty then dictErase cats fc
        else dictSet cats fc (attrs.erase a)
      else cats

/-- Effect of the insertion half of `move_attribute` on the category dictionary
of the destination section. -/
def gAdd (a tc : String) (cats : CatsDict) : CatsDict :=
  let c1 := if containsD cats tc then cats else cats ++ [(tc, [])]
  let attrs := (lookupD c1 tc).getD []
  if a ∈ attrs then c1 else dictSet c1 tc (attrs ++ [a])

theorem removeFromOld_eq_none {d : EntityData} {a fs fc : String}
    (h : lookupD d fs = none) : removeFromOld d a fs fc = d := by
  simp [removeFromOld, h]

theorem removeFromOld_eq {d : EntityData} {a fs fc : String} {cats : CatsDict}
    (h : lookupD d fs = some cats) :
    removeFromOld d a fs fc = dictSet d fs (gRem a fc cats) := by
  simp only [removeFromOld, gRem, h]
  cases h2 : lookupD cats fc with
  | none => exact (dictSet_self_of_lookupD d fs cats h).symm
  | some attrs =>
      by_cases hmem : a ∈ attrs
      · simp [hmem]
      · simp [hmem]
        exact (dictSet_self_of_lookupD d fs cats h).symm

theorem addToNew_eq {d : EntityData} {a ts tc : String} {cats : CatsDict}
    (h : lookupD d ts = some cats) :
    addToNew d a ts tc = dictSet d ts (gAdd a tc cats) := by
  have hco : containsD d ts = true := by simp [containsD, h]
  by_cases h2 : containsD cats tc
  · by_cases h3 : a ∈ (lookupD cats tc).getD []
    · simp [addToNew, gAdd, hco, h, h2, h3]
      exact (dictSet_self_of_lookupD d ts cats h).symm
    · simp [addToNew, gAdd, hco, h, h2, h3]
  · have h5 : lookupD cats tc = none := by
      cases h5 : lookupD cats tc with
      | none => rfl
      | some l => simp [containsD, h5] at h2
    have h6 : lookupD (cats ++ [(tc, [])]) tc = some [] :=
      lookupD_append_single_self cats tc [] h5
    simp [addToNew, gAdd, hco, h, h2, lookupD_dictSet_self, h6, dictSet_dictSet]

theorem addToNew_eq_none {d : EntityData} {a ts tc : String}
    (h : lookupD d ts = none) : addToNew d a ts tc = d ++ [(ts, gAdd a tc [])] := by
  have hco : containsD d ts = false := by simp [containsD, h]
  have h2 : lookupD (d ++ [(ts, ([] : CatsDict))]) ts = some [] :=
    lookupD_append_single_self d ts [] h
  have h4 : dictSet (d ++ [(ts, ([] : CatsDict))]) ts ([(tc, ([] : AttrList))])
      = d ++ [(ts, [(tc, ([] : AttrList))])] :=
    dictSet_append_single d ts ([] : CatsDict) [(tc, ([] : AttrList))] h
  have h5 : lookupD (d ++ [(ts, [(tc, ([] : AttrList))])]) ts = some [(tc, ([] : AttrList))] :=
    lookupD_append_single_self d ts [(tc, ([] : AttrList))] h
  have h7 : dictSet (d ++ [(ts, [(tc, ([] : AttrList))])]) ts ([(tc, [a])])
      = d ++ [(ts, [(tc, [a])])] :=
    dictSet_append_single d ts [(tc, ([] : AttrList))] [(tc, [a])] h
  have h8 : gAdd a tc [] = [(tc, [a])] := by
    simp [gAdd, containsD, lookupD, dictSet]
  simp only [addToNew, containsD, h, Option.isSome_none, Bool.false_eq_true, if_false, h2,
    Option.getD_some, lookupD_nil, List.nil_append, h4, h5]
  have h9 : lookupD [(tc, ([] : AttrList))] tc = some [] := by simp [lookupD]
  simp only [h9, Option.getD_some, List.not_mem_nil, if_false, h8]
  have h10 : dictSet [(tc, ([] : AttrList))] tc [a] = [(tc, [a])] := by
    simp [dictSet]
  simp only [List.nil_append, h10, h7]

/-- Well-formedness of the category dictionary of one section: category names are
distinct and each attribute list is duplicate-free. -/
def catsWF (cats : CatsDict) : Prop :=
  (keysOf cats).Nodup ∧ ∀ q ∈ cats, q.2.Nodup

theorem gAdd_eq_of_none {a tc : String} {cats : CatsDict}
    (h : lookupD cats tc = none) : gAdd a tc cats = cats ++ [(tc, [a])] := by
  have hco : containsD cats tc = false := by simp [containsD, h]
  have h2 : lookupD (cats ++ [(tc, ([] : AttrList))]) tc = some [] :=
    lookupD_append_single_self cats tc [] h
  simp only [gAdd, hco, Bool.false_eq_true, if_false, h2, Option.getD_some,
    List.not_mem_nil]
  simpa using dictSet_append_single cats tc ([] : AttrList) [a] h

theorem gAdd_eq_of_mem {a tc : String} {cats : CatsDict} {l : AttrList}
    (h : lookupD cats tc = some l) (hmem : a ∈ l) : gAdd a tc cats = cats := by
  have hco : containsD cats tc = true := by simp [containsD, h]
  simp [gAdd, hco, h, hmem]

theorem gAdd_eq_of_notmem {a tc : String} {cats : CatsDict} {l : AttrList}
    (h : lookupD cats tc = some l) (hmem : a ∉ l) :
    gAdd a tc cats = dictSet cats tc (l ++ [a]) := by
  have hco : containsD cats tc = true := by simp [containsD, h]
  simp [gAdd, hco, h, hmem]

theorem gAdd_post (a tc : String) (cats : CatsDict) :
    ∃ l, lookupD (gAdd a tc cats) tc = some l ∧ a ∈ l := by
  cases h : lookupD cats tc with
  | none =>
      refine ⟨[a], ?_, by simp⟩
      rw [gAdd_eq_of_none h]
      exact lookupD_append_single_self cats tc [a] h
  | some l =>
      by_cases hmem : a ∈ l
      · exact ⟨l, by rw [gAdd_eq_of_mem h hmem]; exact h, hmem⟩
      · refine ⟨l ++ [a], ?_, by simp⟩
        rw [gAdd_eq_of_notmem h hmem]
        exact lookupD_dictSet_self cats tc (l ++ [a])

theorem gAdd_gAdd (a tc : String) (cats : CatsDict) :
    gAdd a tc (gAdd a tc cats) = gAdd a tc cats := by
  obtain ⟨l, h1, h2⟩ := gAdd_post a tc cats
  exact gAdd_eq_of_mem h1 h2

theorem gAdd_frame {a tc k : String} (cats : CatsDict) (h : k ≠ tc) :
    lookupD (gAdd a tc cats) k = lookupD cats k := by
  cases h1 : lookupD cats tc with
  | none =>
      rw [gAdd_eq_of_none h1]
      exact lookupD_append_single_ne cats tc k [a] h
  | some l =>
      by_cases hmem : a ∈ l
      · rw [gAdd_eq_of_mem h1 hmem]
      · rw [gAdd_eq_of_notmem h1 hmem]
        exact lookupD_dictSet_ne cats tc k (l ++ [a]) h

theorem gRem_noop_none {a fc : String} {cats : CatsDict}
    (h : lookupD cats fc = none) : gRem a fc cats = cats := by
  simp [gRem, h]

theorem gRem_noop_notmem {a fc : String} {cats : CatsDict} {l : AttrList}
    (h : lookupD cats fc = some l) (hmem : a ∉ l) : gRem a fc cats = cats := by
  simp [gRem, h, hmem]

theorem gRem_eq_of_erase_nil {a fc : String} {cats : CatsDict} {l : AttrList}
    (h : lookupD cats fc = some l) (hmem : a ∈ l) (he : l.erase a = []) :
    gRem a fc cats = dictErase cats fc := by
  simp [gRem, h, hmem, he]

theorem gRem_eq_of_erase_ne {a fc : String} {cats : CatsDict} {l : AttrList}
    (h : lookupD cats fc = some l) (hmem : a ∈ l) (he : l.erase a ≠ []) :
    gRem a fc cats = dictSet cats fc (l.erase a) := by
  simp [gRem, h, hmem, List.isEmpty_iff, he]

theorem gRem_frame {a fc k : String} (cats : CatsDict) (h : k ≠ fc) :
    lookupD (gRem a fc cats) k = lookupD cats k := by
  cases h1 : lookupD cats fc with
  | none => rw [gRem_noop_none h1]
  | some l =>
      by_cases hmem : a ∈ l
      · by_cases he : l.erase a = []
        · rw [gRem_eq_of_erase_nil h1 hmem he]
          exact lookupD_dictErase_ne cats fc k h
        · rw [gRem_eq_of_erase_ne h1 hmem he]
          exact lookupD_dictSet_ne cats fc k (l.erase a) h
      · rw [gRem_noop_notmem h1 hmem]

theorem gRem_post {a fc : String} {cats : CatsDict} (hwf : catsWF cats) {l : AttrList}
    (h : lookupD (gRem a fc cats) fc = some l) : a ∉ l := by
  cases h1 : lookupD cats fc with
  | none =>
      rw [gRem_noop_none h1] at h
      rw [h1] at h
      cases h
  | some attrs =>
      have hnd : attrs.Nodup := hwf.2 _ (mem_of_lookupD_eq h1) 
      by_cases hmem : a ∈ attrs
      · by_cases he : attrs.erase a = []
        · rw [gRem_eq_of_erase_nil h1 hmem he] at h
          rw [lookupD_dictErase_self_nodup hwf.1] at h
          cases h
        · rw [gRem_eq_of_erase_ne h1 hmem he] at h
          rw [lookupD_dictSet_self] at h
          obtain rfl : attrs.erase a = l := by injection h
          intro hcon
          exact absurd rfl ((List.Nodup.mem_erase_iff hnd).mp hcon).1
      · rw [gRem_noop_notmem h1 hmem] at h
        rw [h1] at h
        obtain rfl : attrs = l := by injection h
        exact hmem

theorem gRem_gRem {a fc : String} {cats : CatsDict} (hwf : catsWF cats) :
    gRem a fc (gRem a fc cats) = gRem a fc cats := by
  cases h : lookupD (gRem a fc cats) fc with
  | none => exact gRem_noop_none h
  | some l => exact gRem_noop_notmem h (gRem_post hwf h)

theorem catsWF_nil : catsWF [] := by
  constructor
  · simp [keysOf]
  · intro q hq
    simp at hq

theorem gRem_WF {a fc : String} {cats : CatsDict} (hwf : catsWF cats) :
    catsWF (gRem a fc cats) := by
  cases h1 : lookupD cats fc with
  | none => rw [gRem_noop_none h1]; exact hwf
  | some attrs =>
      by_cases hmem : a ∈ attrs
      · by_cases he : attrs.erase a = []
        · rw [gRem_eq_of_erase_nil h1 hmem he]
          refine ⟨?_, ?_⟩
          · exact List.Nodup.sublist (keysOf_sublist_of_sublist (dictErase_sublist cats fc)) hwf.1
          · intro q hq
            exact hwf.2 q ((dictErase_sublist cats fc).subset hq)
        · rw [gRem_eq_of_erase_ne h1 hmem he]
          have hco : containsD cats fc = true := by simp [containsD, h1]
          refine ⟨?_, ?_⟩
          · rw [keysOf_dictSet_of_contains cats fc _ hco]
            exact hwf.1
          · intro q hq
            rcases mem_dictSet hq with hq1 | hq1
            · exact hwf.2 q hq1
            · subst hq1
              exact List.Nodup.erase a (hwf.2 _ (mem_of_lookupD_eq h1))
      · rw [gRem_noop_notmem h1 hmem]; exact hwf

theorem gAdd_WF {a tc : String} {cats : CatsDict} (hwf : catsWF cats) :
    catsWF (gAdd a tc cats) := by
  cases h1 : lookupD cats tc with
  | none =>
      rw [gAdd_eq_of_none h1]
      refine ⟨?_, ?_⟩
      · rw [keysOf_append_single]
        have : tc ∉ keysOf cats := not_contains_of_lookupD_none h1
        simp [List.nodup_append, hwf.1, this]
      · intro q hq
        rcases List.mem_append.mp hq with hq1 | hq1
        · exact hwf.2 q hq1
        · simp at hq1
          subst hq1
          simp
  | some l =>
      by_cases hmem : a ∈ l
      · rw [gAdd_eq_of_mem h1 hmem]; exact hwf
      · rw [gAdd_eq_of_notmem h1 hmem]
        have hco : containsD cats tc = true := by simp [containsD, h1]
        refine ⟨?_, ?_⟩
        · rw [keysOf_dictSet_of_contains cats tc _ hco]
          exact hwf.1
        · intro q hq
          rcases mem_dictSet hq with hq1 | hq1
          · exact hwf.2 q hq1
          · subst hq1
            have : l.Nodup := hwf.2 _ (mem_of_lookupD_eq h1)
            simp [List.nodup_append, this, hmem]

theorem catsWF_of_mem {d : EntityData} (hwf : WFEntity d) {s : String} {cats : CatsDict}
    (h : lookupD d s = some cats) : catsWF cats := by
  have hmem : (s, cats) ∈ d := mem_of_lookupD_eq h
  exact ⟨hwf.2.1 _ hmem, fun q hq => hwf.2.2 _ hmem q hq⟩

theorem WFEntity_dictSet {d : EntityData} (hwf : WFEntity d) {s : String} {cats newCats : CatsDict}
    (h : lookupD d s = some cats) (hnew : catsWF newCats) : WFEntity (dictSet d s newCats) := by
  have hco : containsD d s = true := by simp [containsD, h]
  refine ⟨?_, ?_, ?_⟩
  · rw [keysOf_dictSet_of_contains d s _ hco]
    exact hwf.1
  · intro p hp
    rcases mem_dictSet hp with hp1 | hp1
    · exact hwf.2.1 p hp1
    · subst hp1
      exact hnew.1
  · intro p hp q hq
    rcases mem_dictSet hp with hp1 | hp1
    · exact hwf.2.2 p hp1 q hq
    · subst hp1
      exact hnew.2 q hq

theorem WFEntity_append {d : EntityData} (hwf : WFEntity d) {s : String} {newCats : CatsDict}
    (h : lookupD d s = none) (hnew : catsWF newCats) : WFEntity (d ++ [(s, newCats)]) := by
  refine ⟨?_, ?_, ?_⟩
  · rw [keysOf_append_single]
    have : s ∉ keysOf d := not_contains_of_lookupD_none h
    simp [List.nodup_append, hwf.1, this]
  · intro p hp
    rcases List.mem_append.mp hp with hp1 | hp1
    · exact hwf.2.1 p hp1
    · simp at hp1
      subst hp1
      exact hnew.1
  · intro p hp q hq
    rcases List.mem_append.mp hp with hp1 | hp1
    · exact hwf.2.2 p hp1 q hq
    · simp at hp1
      subst hp1
      exact hnew.2 q hq

theorem removeFromOld_WF {d : EntityData} (hwf : WFEntity d) (a fs fc : String) :
    WFEntity (removeFromOld d a fs fc) := by
  cases h : lookupD d fs with
  | none => rw [removeFromOld_eq_none h]; exact hwf
  | some cats =>
      rw [removeFromOld_eq h]
      exact WFEntity_dictSet hwf h (gRem_WF (catsWF_of_mem hwf h))

theorem addToNew_WF {d : EntityData} (hwf : WFEntity d) (a ts tc : String) :
    WFEntity (addToNew d a ts tc) := by
  cases h : lookupD d ts with
  | none =>
      rw [addToNew_eq_none h]
      exact WFEntity_append hwf h (gAdd_WF catsWF_nil)
  | some cats =>
      rw [addToNew_eq h]
      exact WFEntity_dictSet hwf h (gAdd_WF (catsWF_of_mem hwf h))

theorem moveAttribute_WF {d : EntityData} (hwf : WFEntity d) (a fs fc ts tc : String) :
    WFEntity (moveAttribute d a fs fc ts tc) :=
  addToNew_WF (removeFromOld_WF hwf a fs fc) a ts tc

/-- Python equality of dictionaries given an equality test for the values:
`d1 == d2` holds when the key sets coincide and the values agree pointwise;
insertion order of the keys is irrelevant, exactly as for Python `dict.__eq__`. -/
def pyDictEqB {β : Type} (eqv : β → β → Bool) (m1 m2 : List (String × β)) : Bool :=
  (m1.all fun p =>
    match lookupD m2 p.1 with
    | some w => eqv p.2 w
    | none => false)
  && (m2.all fun p => containsD m1 p.1)

/-- Pointwise relatedness of two optional values. -/
def OptRelB {β : Type} (eqv : β → β → Bool) : Option β → Option β → Prop
  | none, none => True
  | some v, some w => eqv v w = true
  | _, _ => False

theorem pyDictEqB_of_agree {β : Type} (eqv : β → β → Bool) {m1 m2 : List (String × β)}
    (hnd1 : (keysOf m1).Nodup)
    (hagree : ∀ k, OptRelB eqv (lookupD m1 k) (lookupD m2 k)) :
    pyDictEqB eqv m1 m2 = true := by
  unfold pyDictEqB
  rw [Bool.and_eq_true]
  constructor
  · rw [List.all_eq_true]
    intro p hp
    have h1 : lookupD m1 p.1 = some p.2 := lookupD_eq_of_mem_nodup hp hnd1
    have h2 := hagree p.1
    rw [h1] at h2
    cases h3 : lookupD m2 p.1 with
    | none => rw [h3] at h2; cases h2
    | some w =>
        rw [h3] at h2
        simpa using h2
  · rw [List.all_eq_true]
    intro p hp
    have hk : p.1 ∈ keysOf m2 := List.mem_map_of_mem (fun q => q.1) hp
    have h2 := lookupD_isSome_of_mem_keys hk
    have h3 := hagree p.1
    cases h4 : lookupD m1 p.1 with
    | some v => simp [containsD, h4]
    | none =>
        rw [h4] at h3
        cases h5 : lookupD m2 p.1 with
        | none => rw [h5] at h2; cases h2
        | some w => rw [h5] at h3; cases h3

theorem pyDictEqB_refl {β : Type} (eqv : β → β → Bool) {m : List (String × β)}
    (hnd : (keysOf m).Nodup) (hrefl : ∀ p ∈ m, eqv p.2 p.2 = true) :
    pyDictEqB eqv m m = true := by
  refine pyDictEqB_of_agree eqv hnd ?_
  intro k
  cases h : lookupD m k with
  | none => exact trivial
  | some v =>
      show eqv v v = true
      exact hrefl _ (mem_of_lookupD_eq h)

/-- Python equality of attribute lists: element-by-element, order-sensitive. -/
def attrListEqB (x y : AttrList) : Bool := x == y

/-- Python equality of one section (a category dictionary). -/
def catsEqB : CatsDict → CatsDict → Bool := pyDictEqB attrListEqB

/-- Python equality of the whole entity tree: the `==` test Python would apply
to two editor states. -/
def entityDataEqB : EntityData → EntityData → Bool := pyDictEqB catsEqB

theorem catsEqB_refl {cats : CatsDict} (hwf : catsWF cats) : catsEqB cats cats = true :=
  pyDictEqB_refl attrListEqB hwf.1 (fun p _ => by simp [attrListEqB])

theorem entityDataEqB_of_agree {d1 d2 : EntityData} (hnd1 : (keysOf d1).Nodup)
    (hagree : ∀ k, OptRelB catsEqB (lookupD d1 k) (lookupD d2 k)) :
    entityDataEqB d1 d2 = true :=
  pyDictEqB_of_agree catsEqB hnd1 hagree

theorem entityDataEqB_refl {d : EntityData} (hwf : WFEntity d) : entityDataEqB d d = true := by
  refine entityDataEqB_of_agree hwf.1 ?_
  intro k
  cases h : lookupD d k with
  | none => exact trivial
  | some cats =>
      show catsEqB cats cats = true
      exact catsEqB_refl (catsWF_of_mem hwf h)

theorem catsEqB_of_agree {c1 c2 : CatsDict} (hnd1 : (keysOf c1).Nodup)
    (hagree : ∀ k, OptRelB attrListEqB (lookupD c1 k) (lookupD c2 k)) :
    catsEqB c1 c2 = true :=
  pyDictEqB_of_agree attrListEqB hnd1 hagree

/-- One application of the removal-then-insertion pair of `move_attribute` on a
single section is idempotent up to Python dictionary equality. -/
theorem gRemAdd_twice (a fc tc : String) {cats : CatsDict} (hwf : catsWF cats) :
    catsEqB (gAdd a tc (gRem a fc (gAdd a tc (gRem a fc cats))))
      (gAdd a tc (gRem a fc cats)) = true := by
  by_cases hftc : fc = tc
  · subst hftc
    cases h1 : lookupD cats fc with
    | none =>
        have hrem : gRem a fc cats = cats := gRem_noop_none h1
        have hadd : gAdd a fc cats = cats ++ [(fc, [a])] := gAdd_eq_of_none h1
        have h2 : lookupD (cats ++ [(fc, [a])]) fc = some [a] :=
          lookupD_append_single_self cats fc [a] h1
        have hrem2 : gRem a fc (cats ++ [(fc, [a])]) = cats := by
          rw [gRem_eq_of_erase_nil h2 (by simp) (by simp)]
          exact dictErase_append_single cats fc [a] h1
        have hwf2 : catsWF (cats ++ [(fc, [a])]) := by
          have h3 := @gAdd_WF a fc cats hwf
          rwa [hadd] at h3
        rw [hrem, hadd, hrem2, hadd]
        exact catsEqB_refl hwf2
    | some attrs =>
        have hndattrs : attrs.Nodup := hwf.2 _ (mem_of_lookupD_eq h1)
        by_cases hmem : a ∈ attrs
        · by_cases he : attrs.erase a = []
          · have hrem : gRem a fc cats = dictErase cats fc := gRem_eq_of_erase_nil h1 hmem he
            have hE : lookupD (dictErase cats fc) fc = none :=
              lookupD_dictErase_self_nodup hwf.1
            have hadd : gAdd a fc (dictErase cats fc) = dictErase cats fc ++ [(fc, [a])] :=
              gAdd_eq_of_none hE
            have h2 : lookupD (dictErase cats fc ++ [(fc, [a])]) fc = some [a] :=
              lookupD_append_single_self _ fc [a] hE
            have hrem2 : gRem a fc (dictErase cats fc ++ [(fc, [a])]) = dictErase cats fc := by
              rw [gRem_eq_of_erase_nil h2 (by simp) (by simp)]
              exact dictErase_append_single _ fc [a] hE
            have hwf2 : catsWF (dictErase cats fc ++ [(fc, [a])]) := by
              have h3 := @gAdd_WF a fc _ (@gRem_WF a fc cats hwf)
              rwa [hrem, hadd] at h3
            rw [hrem, hadd, hrem2, hadd]
            exact catsEqB_refl hwf2
          · have ha2 : a ∉ attrs.erase a := fun hcon =>
              absurd rfl ((List.Nodup.mem_erase_iff hndattrs).mp hcon).1
            have hrem : gRem a fc cats = dictSet cats fc (attrs.erase a) :=
              gRem_eq_of_erase_ne h1 hmem he
            have hl : lookupD (dictSet cats fc (attrs.erase a)) fc = some (attrs.erase a) :=
              lookupD_dictSet_self cats fc (attrs.erase a)
            have hadd : gAdd a fc (dictSet cats fc (attrs.erase a))
                = dictSet cats fc (attrs.erase a ++ [a]) := by
              rw [gAdd_eq_of_notmem hl ha2, dictSet_dictSet]
            have h2 : lookupD (dictSet cats fc (attrs.erase a ++ [a])) fc
                = some (attrs.erase a ++ [a]) :=
              lookupD_dictSet_self cats fc (attrs.erase a ++ [a])
            have he2 : (attrs.erase a ++ [a]).erase a = attrs.erase a :=
              erase_append_singleton ha2
            have hrem2 : gRem a fc (dictSet cats fc (attrs.erase a ++ [a]))
                = dictSet cats fc (attrs.erase a) := by
              rw [gRem_eq_of_erase_ne h2 (by simp) (by rw [he2]; exact he), he2, dictSet_dictSet]
            have hwf2 : catsWF (dictSet cats fc (attrs.erase a ++ [a])) := by
              have h3 := @gAdd_WF a fc _ (@gRem_WF a fc cats hwf)
              rwa [hrem, hadd] at h3
            rw [hrem, hadd, hrem2, hadd]
            exact catsEqB_refl hwf2
        · have hrem : gRem a fc cats = cats := gRem_noop_notmem h1 hmem
          have hadd : gAdd a fc cats = dictSet cats fc (attrs ++ [a]) :=
            gAdd_eq_of_notmem h1 hmem
          have h2 : lookupD (dictSet cats fc (attrs ++ [a])) fc = some (attrs ++ [a]) :=
            lookupD_dictSet_self cats fc (attrs ++ [a])
          have he2 : (attrs ++ [a]).erase a = attrs := erase_append_singleton hmem
          by_cases hnil : attrs = []
          · subst hnil
            simp only [List.nil_append] at hadd h2 he2
            have hco : containsD cats fc = true := by simp [containsD, h1]
            have hrem2 : gRem a fc (dictSet cats fc ([a]))
                = dictErase (dictSet cats fc ([a])) fc := by
              refine gRem_eq_of_erase_nil h2 (by simp) ?_
              rw [he2]
            have hndY : (keysOf (dictSet cats fc ([a]))).Nodup := by
              rw [keysOf_dictSet_of_contains cats fc _ hco]
              exact hwf.1
            have hZ : lookupD (dictErase (dictSet cats fc ([a])) fc) fc = none :=
              lookupD_dictErase_self_nodup hndY
            have hadd2 : gAdd a fc (dictErase (dictSet cats fc ([a])) fc)
                = dictErase (dictSet cats fc ([a])) fc ++ [(fc, [a])] :=
              gAdd_eq_of_none hZ
            rw [hrem, hadd, hrem2, hadd2]
            refine catsEqB_of_agree ?_ ?_
            · rw [keysOf_append_single]
              have hfcnot : fc ∉ keysOf (dictErase (dictSet cats fc ([a])) fc) :=
                not_contains_of_lookupD_none hZ
              have hndZ : (keysOf (dictErase (dictSet cats fc ([a])) fc)).Nodup :=
                List.Nodup.sublist
                  (keysOf_sublist_of_sublist (dictErase_sublist _ fc)) hndY
              simp [List.nodup_append, hndZ, hfcnot]
            · intro k
              by_cases hk : k = fc
              · rw [hk]
                have hL : lookupD (dictErase (dictSet cats fc ([a])) fc ++ [(fc, [a])]) fc
                    = some [a] := lookupD_append_single_self _ fc [a] hZ
                rw [hL, h2]
                show attrListEqB [a] [a] = true
                simp [attrListEqB]
              · have hL : lookupD (dictErase (dictSet cats fc ([a])) fc ++ [(fc, [a])]) k
                    = lookupD cats k := by
                  rw [lookupD_append_single_ne _ fc k [a] hk,
                    lookupD_dictErase_ne _ fc k hk, lookupD_dictSet_ne cats fc k _ hk]
                have hR : lookupD (dictSet cats fc ([a])) k = lookupD cats k :=
                  lookupD_dictSet_ne cats fc k _ hk
                rw [hL, hR]
                cases h3 : lookupD cats k with
                | none => exact trivial
                | some v =>
                    show attrListEqB v v = true
                    simp [attrListEqB]
          · have hrem2 : gRem a fc (dictSet cats fc (attrs ++ [a]))
                = dictSet cats fc attrs := by
              rw [gRem_eq_of_erase_ne h2 (by simp) (by rw [he2]; exact hnil), he2,
                dictSet_dictSet]
            have h3 : lookupD (dictSet cats fc attrs) fc = some attrs :=
              lookupD_dictSet_self cats fc attrs
            have hadd2 : gAdd a fc (dictSet cats fc attrs) = dictSet cats fc (attrs ++ [a]) := by
              rw [gAdd_eq_of_notmem h3 hmem, dictSet_dictSet]
            have hwf2 : catsWF (dictSet cats fc (attrs ++ [a])) := by
              have h4 := @gAdd_WF a fc cats hwf
              rwa [hadd] at h4
            rw [hrem, hadd, hrem2, hadd2]
            exact catsEqB_refl hwf2
  · have hfr : lookupD (gAdd a tc (gRem a fc cats)) fc = lookupD (gRem a fc cats) fc :=
      gAdd_frame _ hftc
    have hrem2 : gRem a fc (gAdd a tc (gRem a fc cats)) = gAdd a tc (gRem a fc cats) := by
      cases h1 : lookupD (gRem a fc cats) fc with
      | none => exact gRem_noop_none (hfr.trans h1)
      | some l => exact gRem_noop_notmem (hfr.trans h1) (gRem_post hwf h1)
    rw [hrem2, gAdd_gAdd]
    exact catsEqB_refl (gAdd_WF (gRem_WF hwf))

theorem addToNew_lookup_ne {d : EntityData} {a ts tc s : String} (h : s ≠ ts) :
    lookupD (addToNew d a ts tc) s = lookupD d s := by
  cases h1 : lookupD d ts with
  | none =>
      rw [addToNew_eq_none h1]
      exact lookupD_append_single_ne d ts s _ h
  | some cats =>
      rw [addToNew_eq h1]
      exact lookupD_dictSet_ne d ts s _ h

theorem removeFromOld_lookup_ne {d : EntityData} {a fs fc s : String} (h : s ≠ fs) :
    lookupD (removeFromOld d a fs fc) s = lookupD d s := by
  cases h1 : lookupD d fs with
  | none => rw [removeFromOld_eq_none h1]
  | some cats =>
      rw [removeFromOld_eq h1]
      exact lookupD_dictSet_ne d fs s _ h

theorem addToNew_lookup_self {d : EntityData} {a ts tc : String} {cats : CatsDict}
    (h : lookupD d ts = some cats) :
    lookupD (addToNew d a ts tc) ts = some (gAdd a tc cats) := by
  rw [addToNew_eq h]
  exact lookupD_dictSet_self d ts _

theorem addToNew_lookup_self_none {d : EntityData} {a ts tc : String}
    (h : lookupD d ts = none) :
    lookupD (addToNew d a ts tc) ts = some (gAdd a tc []) := by
  rw [addToNew_eq_none h]
  exact lookupD_append_single_self d ts _ h

/-- After `addToNew`, the destination section and category exist and hold the
attribute. -/
theorem addToNew_post (d : EntityData) (a ts tc : String) :
    ∃ cats l, lookupD (addToNew d a ts tc) ts = some cats
      ∧ lookupD cats tc = some l ∧ a ∈ l := by
  cases h1 : lookupD d ts with
  | none =>
      obtain ⟨l, hl, hmem⟩ := gAdd_post a tc []
      exact ⟨gAdd a tc [], l, addToNew_lookup_self_none h1, hl, hmem⟩
  | some cats =>
      obtain ⟨l, hl, hmem⟩ := gAdd_post a tc cats
      exact ⟨gAdd a tc cats, l, addToNew_lookup_self h1, hl, hmem⟩

/-- `addToNew` is the identity when the destination already holds the
attribute. -/
theorem addToNew_noop {d : EntityData} {a ts tc : String} {cats : CatsDict} {l : AttrList}
    (h1 : lookupD d ts = some cats) (h2 : lookupD cats tc = some l) (h3 : a ∈ l) :
    addToNew d a ts tc = d := by
  rw [addToNew_eq h1, gAdd_eq_of_mem h2 h3]
  exact dictSet_self_of_lookupD d ts cats h1

/-- The removal half is the identity when the attribute is not at the source
location. -/
theorem removeFromOld_noop_of_absent {d : EntityData} {a fs fc : String}
    (h : attrAt d fs fc a = false) : removeFromOld d a fs fc = d := by
  cases h1 : lookupD d fs with
  | none => exact removeFromOld_eq_none h1
  | some cats =>
      rw [removeFromOld_eq h1]
      cases h2 : lookupD cats fc with
      | none =>
          rw [gRem_noop_none h2]
          exact dictSet_self_of_lookupD d fs cats h1
      | some attrs =>
          have h3 : a ∉ attrs := by
            simp only [attrAt, h1, h2] at h
            simpa using h
          rw [gRem_noop_notmem h2 h3]
          exact dictSet_self_of_lookupD d fs cats h1


/-- C5: move_attribute is idempotent: calling it twice with identical
arguments leaves the tree identical (as a Python value, i.e. up to the
irrelevant insertion order of dictionary keys) to calling it once.  The
well-formedness hypothesis records that the tree is a Python dictionary tree
satisfying the data-model invariant of attribute uniqueness within a
category. -/
theorem moveAttribute_idempotent (d : EntityData) (a fs fc ts tc : String) (hwf : WFEntity d) :
    entityDataEqB
      (moveAttribute (moveAttribute d a fs fc ts tc) a fs fc ts tc)
      (moveAttribute d a fs fc ts tc) = true := by
  by_cases hst : fs = ts
  · subst hst
    cases h1 : lookupD d fs with
    | some cats =>
        have hM : moveAttribute d a fs fc fs tc
            = dictSet d fs (gAdd a tc (gRem a fc cats)) := by
          unfold moveAttribute
          rw [removeFromOld_eq h1, addToNew_eq (lookupD_dictSet_self d fs (gRem a fc cats)),
            dictSet_dictSet]
        have hMl : lookupD (moveAttribute d a fs fc fs tc) fs
            = some (gAdd a tc (gRem a fc cats)) := by
          rw [hM]
          exact lookupD_dictSet_self d fs _
        have hM2 : moveAttribute (moveAttribute d a fs fc fs tc) a fs fc fs tc
            = dictSet d fs (gAdd a tc (gRem a fc (gAdd a tc (gRem a fc cats)))) := by
          show addToNew (removeFromOld (moveAttribute d a fs fc fs tc) a fs fc) a fs tc
              = dictSet d fs (gAdd a tc (gRem a fc (gAdd a tc (gRem a fc cats))))
          rw [removeFromOld_eq hMl, addToNew_eq (lookupD_dictSet_self _ fs _), dictSet_dictSet,
            hM, dictSet_dictSet]
        rw [hM2, hM]
        refine entityDataEqB_of_agree ?_ ?_
        · rw [keysOf_dictSet_of_contains d fs _ (by simp [containsD, h1])]
          exact hwf.1
        · intro k
          by_cases hk : k = fs
          · rw [hk, lookupD_dictSet_self, lookupD_dictSet_self]
            show catsEqB _ _ = true
            exact gRemAdd_twice a fc tc (catsWF_of_mem hwf h1)
          · rw [lookupD_dictSet_ne d fs k _ hk, lookupD_dictSet_ne d fs k _ hk]
            cases h3 : lookupD d k with
            | none => exact trivial
            | some c =>
                show catsEqB c c = true
                exact catsEqB_refl (catsWF_of_mem hwf h3)
    | none =>
        have hg0 : gRem a fc ([] : CatsDict) = [] := gRem_noop_none rfl
        have hM : moveAttribute d a fs fc fs tc = d ++ [(fs, gAdd a tc [])] := by
          unfold moveAttribute
          rw [removeFromOld_eq_none h1, addToNew_eq_none h1]
        have hMl : lookupD (moveAttribute d a fs fc fs tc) fs = some (gAdd a tc []) := by
          rw [hM]
          exact lookupD_append_single_self d fs _ h1
        have hM2 : moveAttribute (moveAttribute d a fs fc fs tc) a fs fc fs tc
            = d ++ [(fs, gAdd a tc (gRem a fc (gAdd a tc [])))] := by
          show addToNew (removeFromOld (moveAttribute d a fs fc fs tc) a fs fc) a fs tc
              = d ++ [(fs, gAdd a tc (gRem a fc (gAdd a tc [])))]
          rw [removeFromOld_eq hMl, addToNew_eq (lookupD_dictSet_self _ fs _), dictSet_dictSet,
            hM, dictSet_append_single d fs _ _ h1]
        rw [hM2, hM]
        refine entityDataEqB_of_agree ?_ ?_
        · rw [keysOf_append_single]
          simp [List.nodup_append, hwf.1, not_contains_of_lookupD_none h1]
        · intro k
          by_cases hk : k = fs
          · rw [hk, lookupD_append_single_self d fs _ h1, lookupD_append_single_self d fs _ h1]
            show catsEqB _ _ = true
            have hgg := gRemAdd_twice a fc tc catsWF_nil
            rwa [hg0] at hgg
          · rw [lookupD_append_single_ne d fs k _ hk, lookupD_append_single_ne d fs k _ hk]
            cases h3 : lookupD d k with
            | none => exact trivial
            | some c =>
                show catsEqB c c = true
                exact catsEqB_refl (catsWF_of_mem hwf h3)
  · have hRM : removeFromOld (moveAttribute d a fs fc ts tc) a fs fc
        = moveAttribute d a fs fc ts tc := by
      cases h1 : lookupD d fs with
      | none =>
          have h2 : lookupD (moveAttribute d a fs fc ts tc) fs = none := by
            unfold moveAttribute
            rw [addToNew_lookup_ne hst, removeFromOld_eq_none h1, h1]
          exact removeFromOld_eq_none h2
      | some cats =>
          have h2 : lookupD (moveAttribute d a fs fc ts tc) fs = some (gRem a fc cats) := by
            unfold moveAttribute
            rw [addToNew_lookup_ne hst, removeFromOld_eq h1, lookupD_dictSet_self]
          rw [removeFromOld_eq h2, gRem_gRem (catsWF_of_mem hwf h1)]
          exact dictSet_self_of_lookupD _ fs _ h2
    have hMeq : moveAttribute (moveAttribute d a fs fc ts tc) a fs fc ts tc
        = moveAttribute d a fs fc ts tc := by
      show addToNew (removeFromOld (moveAttribute d a fs fc ts tc) a fs fc) a ts tc
          = moveAttribute d a fs fc ts tc
      rw [hRM]
      obtain ⟨cats, l, hA1, hA2, hA3⟩ := addToNew_post (removeFromOld d a fs fc) a ts tc
      exact addToNew_noop hA1 hA2 hA3
    rw [hMeq]
    exact entityDataEqB_refl (moveAttribute_WF hwf a fs fc ts tc)

theorem attrAt_true_elim {d : EntityData} {s c a : String} (h : attrAt d s c a = true) :
    ∃ cats l, lookupD d s = some cats ∧ lookupD cats c = some l ∧ a ∈ l := by
  cases h1 : lookupD d s with
  | none => simp [attrAt, h1] at h
  | some cats =>
      cases h2 : lookupD cats c with
      | none => simp [attrAt, h1, h2] at h
      | some l =>
          refine ⟨cats, l, rfl, h2, ?_⟩
          simpa [attrAt, h1, h2] using h

/-- C1 (amended): when the attribute is absent from the source category the
removal half of move_attribute is a silent no-op and no exception is raised,
but the insertion half still runs: every section other than the destination is
left unchanged, the destination section and category are created if absent and
afterwards hold the attribute, and the call leaves the tree entirely unchanged
exactly when the destination already held the attribute. -/
theorem moveAttribute_absent_source (d : EntityData) (a fs fc ts tc : String)
    (h : attrAt d fs fc a = false) :
    (∀ s, s ≠ ts → lookupD (moveAttribute d a fs fc ts tc) s = lookupD d s)
    ∧ (∃ cats l, lookupD (moveAttribute d a fs fc ts tc) ts = some cats
        ∧ lookupD cats tc = some l ∧ a ∈ l)
    ∧ (attrAt d ts tc a = true → moveAttribute d a fs fc ts tc = d) := by
  have hR : removeFromOld d a fs fc = d := removeFromOld_noop_of_absent h
  refine ⟨?_, ?_, ?_⟩
  · intro s hs
    show lookupD (addToNew (removeFromOld d a fs fc) a ts tc) s = lookupD d s
    rw [hR, addToNew_lookup_ne hs]
  · show ∃ cats l, lookupD (addToNew (removeFromOld d a fs fc) a ts tc) ts = some cats
        ∧ lookupD cats tc = some l ∧ a ∈ l
    rw [hR]
    exact addToNew_post d a ts tc
  · intro h2
    obtain ⟨cats, l, h3, h4, h5⟩ := attrAt_true_elim h2
    show addToNew (removeFromOld d a fs fc) a ts tc = d
    rw [hR]
    exact addToNew_noop h3 h4 h5

theorem moveAttribute_absent_source_witness :
    attrAt [("s1", [("c1", ["a"])])] "s1" "c1" "b" = false
    ∧ (∃ cats l,
        lookupD (moveAttribute [("s1", [("c1", ["a"])])] "b" "s1" "c1" "s2" "c2") "s2"
          = some cats ∧ lookupD cats "c2" = some l ∧ "b" ∈ l) :=
  ⟨by decide, (moveAttribute_absent_source _ "b" "s1" "c1" "s2" "c2" (by decide)).2.1⟩

/-- C1 (counterexample): moving an attribute that is absent from the source is
not a no-op: on the tree with the single section s1 holding category c1 with
attribute a, moving the absent attribute b from s1/c1 to s2/c2 creates the
destination and adds b there, so the tree changes (structurally and as a
Python value). -/
theorem moveAttribute_silent_noop_counterexample :
    attrAt [("s1", [("c1", ["a"])])] "s1" "c1" "b" = false
    ∧ moveAttribute [("s1", [("c1", ["a"])])] "b" "s1" "c1" "s2" "c2"
        ≠ [("s1", [("c1", ["a"])])]
    ∧ entityDataEqB (moveAttribute [("s1", [("c1", ["a"])])] "b" "s1" "c1" "s2" "c2")
        [("s1", [("c1", ["a"])])] = false := by
  refine ⟨by decide, by decide, by decide⟩

theorem moveAttribute_idempotent_witness :
    WFEntity [("common", [("identity", ["os_version"])])]
    ∧ entityDataEqB
        (moveAttribute (moveAttribute [("common", [("identity", ["os_version"])])]
            "os_version" "common" "identity" "enrichment" "os_info")
          "os_version" "common" "identity" "enrichment" "os_info")
        (moveAttribute [("common", [("identity", ["os_version"])])]
          "os_version" "common" "identity" "enrichment" "os_info") = true :=
  ⟨by decide, moveAttribute_idempotent _ "os_version" "common" "identity" "enrichment" "os_info"
    (by decide)⟩

/-! ### Renaming a category -/

inductive RenameErr where
  | nameConflict
  | keyMissing
  deriving DecidableEq

/-- Transcription of the category-rename handler of categorized_visualizer.py
(the conditional that checks whether the new name is already a key of the
section): on a name conflict an error is reported and nothing changes;
otherwise the attribute list is assigned to the new key (a fresh binding
appended at the end of the section dictionary) and the old key is deleted.
The surrounding UI form invokes this block only for a nonempty new name that
differs from the old one; reading a missing old category would raise a
KeyError, modelled as `keyMissing` (unreachable from the UI, which offers only
existing categories for renaming). -/
def renameCategory (cats : CatsDict) (oldName newName : String) : Except RenameErr CatsDict :=
  if containsD cats newName then .error .nameConflict
  else
    match lookupD cats oldName with
    | none => .error .keyMissing
    | some attrs => .ok (dictErase (dictSet cats newName attrs) oldName)

/-- The session-state update around `renameCategory`: on an error the tree is
left unchanged, on success the section is updated in place. -/
def applyRename (d : EntityData) (sec oldName newName : String) : EntityData :=
  match lookupD d sec with
  | none => d
  | some cats =>
      match renameCategory cats oldName newName with
      | .error _ => d
      | .ok cats2 => dictSet d sec cats2

/-- C7: rename_category fails with a NameConflict when the new name already
exists in the section, leaving the tree unchanged; otherwise the category is
relocated to the new key with its attribute list intact (order preserved), the
old key is removed, and all other categories are untouched. -/
theorem renameCategory_spec (d : EntityData) (sec oldName newName : String) (cats : CatsDict)
    (hsec : lookupD d sec = some cats) (hnd : (keysOf cats).Nodup) :
    (containsD cats newName = true →
      renameCategory cats oldName newName = .error .nameConflict
      ∧ applyRename d sec oldName newName = d)
    ∧ (containsD cats newName = false → ∀ attrs, lookupD cats oldName = some attrs →
      ∃ cats2, renameCategory cats oldName newName = .ok cats2
        ∧ lookupD cats2 newName = some attrs
        ∧ lookupD cats2 oldName = none
        ∧ (∀ k, k ≠ oldName → k ≠ newName → lookupD cats2 k = lookupD cats k)
        ∧ applyRename d sec oldName newName = dictSet d sec cats2) := by
  constructor
  · intro hco
    have h1 : renameCategory cats oldName newName = .error .nameConflict := by
      simp [renameCategory, hco]
    refine ⟨h1, ?_⟩
    simp [applyRename, hsec, h1]
  · intro hco attrs hold
    have hnewnone : lookupD cats newName = none := by
      cases h2 : lookupD cats newName with
      | none => rfl
      | some l => simp [containsD, h2] at hco
    have hne : oldName ≠ newName := by
      intro hh
      rw [hh, hnewnone] at hold
      cases hold
    have h1 : renameCategory cats oldName newName
        = .ok (dictErase (dictSet cats newName attrs) oldName) := by
      simp [renameCategory, hco, hold]
    refine ⟨dictErase (dictSet cats newName attrs) oldName, h1, ?_, ?_, ?_, ?_⟩
    · rw [lookupD_dictErase_ne _ oldName newName (Ne.symm hne)]
      exact lookupD_dictSet_self cats newName attrs
    · have hnd2 : (keysOf (dictSet cats newName attrs)).Nodup := by
        rw [keysOf_dictSet_of_not_contains cats newName attrs hco]
        have : newName ∉ keysOf cats := not_contains_of_lookupD_none hnewnone
        simp [List.nodup_append, hnd, this]
      exact lookupD_dictErase_self_nodup hnd2
    · intro k hk1 hk2
      rw [lookupD_dictErase_ne _ oldName k hk1, lookupD_dictSet_ne cats newName k attrs hk2]
    · simp [applyRename, hsec, h1]

theorem renameCategory_spec_witness :
    (lookupD [("common", [("identity", ["x"]), ("network", ["y"])])] "common"
        = some [("identity", ["x"]), ("network", ["y"])]
      ∧ (keysOf [("identity", (["x"] : AttrList)), ("network", ["y"])]).Nodup
      ∧ containsD [("identity", (["x"] : AttrList)), ("network", ["y"])] "network" = true)
    ∧ renameCategory [("identity", (["x"] : AttrList)), ("network", ["y"])] "identity" "network"
        = .error .nameConflict
    ∧ applyRename [("common", [("identity", ["x"]), ("network", ["y"])])] "common"
        "identity" "network" = [("common", [("identity", ["x"]), ("network", ["y"])])] := by
  refine ⟨⟨by decide, by decide, by decide⟩, ?_, ?_⟩
  · exact ((renameCategory_spec [("common", [("identity", ["x"]), ("network", ["y"])])]
      "common" "identity" "network" [("identity", ["x"]), ("network", ["y"])]
      (by decide) (by decide)).1 (by decide)).1
  · exact ((renameCategory_spec [("common", [("identity", ["x"]), ("network", ["y"])])]
      "common" "identity" "network" [("identity", ["x"]), ("network", ["y"])]
      (by decide) (by decide)).1 (by decide)).2

/-! ### Deleting a category with a fallback -/

/-- Modelled from the spec: `delete_category(tree, section, category,
fallback_category_name)` is described in the specification but has no
implementation among the source files of the repository.  Following the words
of the spec: looking up a missing section or category is a hard failure reported to
the caller with the tree unchanged (`none` here); otherwise, if the category
holds attributes they are moved to the fallback category within the same
section (created if absent) before the category is removed.  The operation is
governed by the guarantee that no attribute is ever silently dropped, so
deleting a category into itself is a no-op rather than a drop of its
attributes together with the category. -/
def deleteCategory (d : EntityData) (sec category fallback : String) : Option EntityData :=
  match lookupD d sec with
  | none => none
  | some cats =>
      match lookupD cats category with
      | none => none
      | some attrs =>
          if category = fallback then some d
          else
            let cats1 :=
              if attrs.isEmpty then cats
              else
                match lookupD cats fallback with
                | some fb => dictSet cats fallback (fb ++ attrs)
                | none => cats ++ [(fallback, attrs)]
            some (dictSet d sec (dictErase cats1 category))

/-- Attribute count of one section. -/
def catsCount (cats : CatsDict) : Nat := (cats.map (fun q => q.2.length)).sum

/-- Total attribute count of the tree. -/
def totalAttrs (d : EntityData) : Nat := (d.map (fun p => catsCount p.2)).sum

theorem catsCount_dictSet {cats : CatsDict} {k : String} {v : AttrList} (w : AttrList)
    (h : lookupD cats k = some v) :
    catsCount (dictSet cats k w) + v.length = catsCount cats + w.length := by
  induction cats with
  | nil => simp [lookupD] at h
  | cons hd tl ih =>
      obtain ⟨k0, v0⟩ := hd
      by_cases hk : k0 = k
      · subst hk
        simp [lookupD] at h
        subst h
        simp [dictSet, catsCount]
        omega
      · simp [lookupD, hk] at h
        simp [dictSet, hk, catsCount] at ih ⊢
        have := ih h
        omega

theorem catsCount_append (cats : CatsDict) (k : String) (v : AttrList) :
    catsCount (cats ++ [(k, v)]) = catsCount cats + v.length := by
  simp [catsCount]

theorem catsCount_dictErase {cats : CatsDict} {k : String} {v : AttrList}
    (h : lookupD cats k = some v) :
    catsCount (dictErase cats k) + v.length = catsCount cats := by
  induction cats with
  | nil => simp [lookupD] at h
  | cons hd tl ih =>
      obtain ⟨k0, v0⟩ := hd
      by_cases hk : k0 = k
      · subst hk
        simp [lookupD] at h
        subst h
        simp [dictErase, catsCount]
        omega
      · simp [lookupD, hk] at h
        simp [dictErase, hk, catsCount] at ih ⊢
        have := ih h
        omega

theorem totalAttrs_dictSet {d : EntityData} {s : String} {cats : CatsDict} (cats2 : CatsDict)
    (h : lookupD d s = some cats) :
    totalAttrs (dictSet d s cats2) + catsCount cats = totalAttrs d + catsCount cats2 := by
  induction d with
  | nil => simp [lookupD] at h
  | cons hd tl ih =>
      obtain ⟨k0, v0⟩ := hd
      by_cases hk : k0 = s
      · subst hk
        simp [lookupD] at h
        subst h
        simp [dictSet, totalAttrs]
        omega
      · simp [lookupD, hk] at h
        simp [dictSet, hk, totalAttrs] at ih ⊢
        have := ih h
        omega

/-- C2: delete_category never reduces the total attribute count of the tree,
and every attribute of the deleted category reappears in the fallback category
of the same section (the fallback being created if absent).  A missing section
or category is a hard failure that leaves the tree unchanged. -/
theorem deleteCategory_no_loss (d : EntityData) (sec category fallback : String) :
    totalAttrs d ≤ totalAttrs ((deleteCategory d sec category fallback).getD d)
    ∧ (∀ cats attrs, lookupD d sec = some cats → lookupD cats category = some attrs →
        ∀ a ∈ attrs, ∃ cats2 l,
          lookupD ((deleteCategory d sec category fallback).getD d) sec = some cats2
          ∧ lookupD cats2 fallback = some l ∧ a ∈ l) := by
  cases hsec : lookupD d sec with
  | none =>
      constructor
      · simp [deleteCategory, hsec]
      · intro cats attrs hsec2 hcat a ha
        exact Option.noConfusion hsec2
  | some cats =>
      cases hcat : lookupD cats category with
      | none =>
          constructor
          · simp [deleteCategory, hsec, hcat]
          · intro cats0 attrs hsec2 hcat2 a ha
            obtain rfl : cats = cats0 := by injection hsec2
            rw [hcat] at hcat2
            cases hcat2
      | some attrs =>
          by_cases hcf : category = fallback
          · subst hcf
            have hres : deleteCategory d sec category category = some d := by
              simp [deleteCategory, hsec, hcat]
            constructor
            · simp [hres]
            · intro cats0 attrs0 hsec2 hcat2 a ha
              obtain rfl : cats = cats0 := by injection hsec2
              rw [hcat] at hcat2
              obtain rfl : attrs = attrs0 := by injection hcat2
              exact ⟨cats, attrs, by simp [hres, hsec], hcat, ha⟩
          · by_cases hempty : attrs.isEmpty
            · have hres : deleteCategory d sec category fallback
                  = some (dictSet d sec (dictErase cats category)) := by
                simp [deleteCategory, hsec, hcat, hcf, hempty]
              have hanil : attrs = [] := by simpa [List.isEmpty_iff] using hempty
              constructor
              · have h1 := totalAttrs_dictSet (dictErase cats category) hsec
                have h2 := catsCount_dictErase hcat
                rw [hres]
                simp only [Option.getD_some]
                subst hanil
                simp at h2
                omega
              · intro cats0 attrs0 hsec2 hcat2 a ha
                obtain rfl : cats = cats0 := by injection hsec2
                rw [hcat] at hcat2
                obtain rfl : attrs = attrs0 := by injection hcat2
                subst hanil
                cases ha
            · cases hfb : lookupD cats fallback with
              | some fb =>
                  have hres : deleteCategory d sec category fallback
                      = some (dictSet d sec
                          (dictErase (dictSet cats fallback (fb ++ attrs)) category)) := by
                    simp [deleteCategory, hsec, hcat, hcf, hempty, hfb]
                  have hcat1 : lookupD (dictSet cats fallback (fb ++ attrs)) category
                      = some attrs := by
                    rw [lookupD_dictSet_ne cats fallback category _ hcf]
                    exact hcat
                  constructor
                  · have h1 := totalAttrs_dictSet
                      (dictErase (dictSet cats fallback (fb ++ attrs)) category) hsec
                    have h2 := catsCount_dictErase hcat1
                    have h3 := catsCount_dictSet (fb ++ attrs) hfb
                    rw [hres]
                    simp only [Option.getD_some]
                    simp at h3
                    omega
                  · intro cats0 attrs0 hsec2 hcat2 a ha
                    obtain rfl : cats = cats0 := by injection hsec2
                    rw [hcat] at hcat2
                    obtain rfl : attrs = attrs0 := by injection hcat2
                    refine ⟨dictErase (dictSet cats fallback (fb ++ attrs)) category,
                      fb ++ attrs, by simp [hres, lookupD_dictSet_self], ?_, by simp [ha]⟩
                    rw [lookupD_dictErase_ne _ category fallback (fun hh => hcf hh.symm)]
                    exact lookupD_dictSet_self cats fallback (fb ++ attrs)
              | none =>
                  have hres : deleteCategory d sec category fallback
                      = some (dictSet d sec
                          (dictErase (cats ++ [(fallback, attrs)]) category)) := by
                    simp [deleteCategory, hsec, hcat, hcf, hempty, hfb]
                  have hcat1 : lookupD (cats ++ [(fallback, attrs)]) category = some attrs := by
                    rw [lookupD_append_single_ne cats fallback category attrs hcf]
                    exact hcat
                  constructor
                  · have h1 := totalAttrs_dictSet
                      (dictErase (cats ++ [(fallback, attrs)]) category) hsec
                    have h2 := catsCount_dictErase hcat1
                    have h3 := catsCount_append cats fallback attrs
                    rw [hres]
                    simp only [Option.getD_some]
                    omega
                  · intro cats0 attrs0 hsec2 hcat2 a ha
                    obtain rfl : cats = cats0 := by injection hsec2
                    rw [hcat] at hcat2
                    obtain rfl : attrs = attrs0 := by injection hcat2
                    refine ⟨dictErase (cats ++ [(fallback, attrs)]) category, attrs,
                      by simp [hres, lookupD_dictSet_self], ?_, ha⟩
                    rw [lookupD_dictErase_ne _ category fallback (fun hh => hcf hh.symm)]
                    exact lookupD_append_single_self cats fallback attrs hfb

theorem deleteCategory_no_loss_witness :
    (lookupD [("common", [("legacy", ["x", "y"])])] "common" = some [("legacy", ["x", "y"])]
      ∧ lookupD [("legacy", (["x", "y"] : AttrList))] "legacy" = some ["x", "y"]
      ∧ "x" ∈ (["x", "y"] : AttrList))
    ∧ totalAttrs [("common", [("legacy", ["x", "y"])])]
        ≤ totalAttrs ((deleteCategory [("common", [("legacy", ["x", "y"])])]
            "common" "legacy" "Uncategorized").getD [("common", [("legacy", ["x", "y"])])])
    ∧ (∃ cats2 l,
        lookupD ((deleteCategory [("common", [("legacy", ["x", "y"])])]
            "common" "legacy" "Uncategorized").getD
          [("common", [("legacy", ["x", "y"])])]) "common" = some cats2
        ∧ lookupD cats2 "Uncategorized" = some l ∧ "x" ∈ l) := by
  refine ⟨⟨by decide, by decide, by decide⟩, ?_, ?_⟩
  · exact (deleteCategory_no_loss [("common", [("legacy", ["x", "y"])])]
      "common" "legacy" "Uncategorized").1
  · exact (deleteCategory_no_loss [("common", [("legacy", ["x", "y"])])]
      "common" "legacy" "Uncategorized").2 [("legacy", ["x", "y"])] ["x", "y"]
      (by decide) (by decide) "x" (by decide)

/-! ### Rate limiting of the casing-fix loop

fix_attribute_casing.py iterates over the attributes of a file; for an
attribute with a nonempty string caption one provider call is issued to fix
the caption, and likewise one call for a nonempty string description.  After
every 30th attribute the loop sleeps 60 seconds.
-/

/-- One attribute as seen by the casing-fix loop: whether the caption
condition and the description condition of process_file hold (each true flag
triggers exactly one provider call). -/
structure CasingAttr where
  hasCaption : Bool
  hasDescription : Bool
  deriving DecidableEq

/-- Externally observable events of the loop: a provider call, or a 60-second
sleep. -/
inductive RateEvent where
  | providerCall
  | pause
  deriving DecidableEq

def attrEvents (x : CasingAttr) : List RateEvent :=
  (if x.hasCaption then [RateEvent.providerCall] else [])
    ++ (if x.hasDescription then [RateEvent.providerCall] else [])

/-- Event trace of process_file from the given zero-based position: attribute
number idx0+1 is processed (its calls issued), and when that one-based index
is divisible by 30 the loop sleeps 60 seconds before continuing. -/
def casingTrace : Nat → List CasingAttr → List RateEvent
  | _, [] => []
  | idx0, x :: rest =>
      attrEvents x ++ (if (idx0 + 1) % 30 = 0 then [RateEvent.pause] else [])
        ++ casingTrace (idx0 + 1) rest

def runsAux : List RateEvent → Nat → Nat
  | [], cur => cur
  | RateEvent.providerCall :: rest, cur => runsAux rest (cur + 1)
  | RateEvent.pause :: rest, cur => max cur (runsAux rest 0)

/-- Longest run of consecutive provider calls not interrupted by a pause. -/
def maxConsecCalls (l : List RateEvent) : Nat := runsAux l 0

theorem runsAux_casingTrace_le (xs : List CasingAttr) :
    ∀ idx0 cur, cur ≤ 2 * (idx0 % 30) → runsAux (casingTrace idx0 xs) cur ≤ 60 := by
  induction xs with
  | nil =>
      intro idx0 cur h
      have hm : idx0 % 30 < 30 := Nat.mod_lt _ (by omega)
      simp only [casingTrace, runsAux]
      omega
  | cons x rest ih =>
      intro idx0 cur h
      obtain ⟨b1, b2⟩ := x
      have hm : idx0 % 30 < 30 := Nat.mod_lt _ (by omega)
      by_cases hp : (idx0 + 1) % 30 = 0
      · cases b1 <;> cases b2 <;>
          · simp [casingTrace, attrEvents, hp, runsAux]
            exact ⟨by omega, ih (idx0 + 1) 0 (by omega)⟩
      · have hp2 : (idx0 + 1) % 30 = idx0 % 30 + 1 := by omega
        cases b1 <;> cases b2 <;>
          · simp [casingTrace, attrEvents, hp, runsAux]
            exact ih (idx0 + 1) _ (by omega)

/-- C4 (amended): the casing-fix loop of process_file sleeps 60 seconds after
every 30th attribute; each attribute issues at most two provider calls (one
for its caption and one for its description), so at most 60 consecutive
provider calls are issued before a pause of at least 60 seconds. -/
theorem casingTrace_max_calls (xs : List CasingAttr) :
    maxConsecCalls (casingTrace 0 xs) ≤ 60 :=
  runsAux_casingTrace_le xs 0 0 (by simp)

/-- C4 (counterexample): on a file of 30 attributes that each have a caption
and a description, the loop issues 60 consecutive provider calls before the
first pause, exceeding the 30 claimed by the specification. -/
theorem casingTrace_counterexample :
    maxConsecCalls (casingTrace 0 (List.replicate 30 ⟨true, true⟩)) = 60
    ∧ ¬ maxConsecCalls (casingTrace 0 (List.replicate 30 ⟨true, true⟩)) ≤ 30 := by
  refine ⟨by decide, by decide⟩

/-! ### Structural JSON diffing

compare_configs.py (and identically convert_to_dd_v2.1.py) compares two
attribute records with deep_compare_dicts and reports their differences with
find_dict_differences, both excluding the key "dashboard_identifier" at every
dictionary level.  JSON values are modelled with scalar atoms kept opaque
(they are only ever tested for equality); dictionaries are association lists
in insertion order.
-/

/-- A JSON value: scalar atom, array, or object. -/
inductive Val where
  | prim : String → Val
  | list : List Val → Val
  | dict : List (String × Val) → Val

mutual
def valDeq : (a b : Val) → Decidable (a = b)
  | .prim a, .prim b =>
      if h : a = b then .isTrue (h ▸ rfl) else .isFalse (fun hh => h (Val.prim.inj hh))
  | .prim _, .list _ => .isFalse (fun h => Val.noConfusion h)
  | .prim _, .dict _ => .isFalse (fun h => Val.noConfusion h)
  | .list _, .prim _ => .isFalse (fun h => Val.noConfusion h)
  | .list xs, .list ys =>
      match listDeq xs ys with
      | .isTrue h => .isTrue (h ▸ rfl)
      | .isFalse h => .isFalse (fun hh => h (Val.list.inj hh))
  | .list _, .dict _ => .isFalse (fun h => Val.noConfusion h)
  | .dict _, .prim _ => .isFalse (fun h => Val.noConfusion h)
  | .dict _, .list _ => .isFalse (fun h => Val.noConfusion h)
  | .dict m1, .dict m2 =>
      match fieldsDeq m1 m2 with
      | .isTrue h => .isTrue (h ▸ rfl)
      | .isFalse h => .isFalse (fun hh => h (Val.dict.inj hh))

def listDeq : (xs ys : List Val) → Decidable (xs = ys)
  | [], [] => .isTrue rfl
  | [], _ :: _ => .isFalse (fun h => List.noConfusion h)
  | _ :: _, [] => .isFalse (fun h => List.noConfusion h)
  | x :: xs, y :: ys =>
      match valDeq x y with
      | .isFalse h => .isFalse (fun hh => h (List.cons.inj hh).1)
      | .isTrue h1 =>
          match listDeq xs ys with
          | .isTrue h2 => .isTrue (by rw [h1, h2])
          | .isFalse h2 => .isFalse (fun hh => h2 (List.cons.inj hh).2)

def fieldsDeq : (m1 m2 : List (String × Val)) → Decidable (m1 = m2)
  | [], [] => .isTrue rfl
  | [], _ :: _ => .isFalse (fun h => List.noConfusion h)
  | _ :: _, [] => .isFalse (fun h => List.noConfusion h)
  | (k1, v1) :: r1, (k2, v2) :: r2 =>
      if hk : k1 = k2 then
        match valDeq v1 v2 with
        | .isFalse h => .isFalse (fun hh => h (congrArg Prod.snd (List.cons.inj hh).1))
        | .isTrue h1 =>
            match fieldsDeq r1 r2 with
            | .isTrue h2 => .isTrue (by rw [hk, h1, h2])
            | .isFalse h2 => .isFalse (fun hh => h2 (List.cons.inj hh).2)
      else .isFalse (fun hh => hk (congrArg Prod.fst (List.cons.inj hh).1))
end

instance : DecidableEq Val := valDeq

/-- The field name excluded from all comparisons. -/
def did : String := "dashboard_identifier"

/-- Boolean key-distinctness check. -/
def keysNodupB : List String → Bool
  | [] => true
  | k :: ks => !ks.contains k && keysNodupB ks

mutual
/-- Python equality on the modelled values: scalars by atom equality, lists
element-by-element in order, dictionaries by key set and pointwise equality
(insertion order irrelevant), different shapes unequal. -/
def pyEq : Val → Val → Bool
  | .prim a, .prim b => a == b
  | .list xs, .list ys => pyEqList xs ys
  | .dict m1, .dict m2 =>
      (keysOf m1).all (fun k => (keysOf m2).contains k)
        && (keysOf m2).all (fun k => (keysOf m1).contains k)
        && pyEqFields m1 m2
  | _, _ => false

def pyEqList : List Val → List Val → Bool
  | [], [] => true
  | x :: xs, y :: ys => pyEq x y && pyEqList xs ys
  | _, _ => false

def pyEqFields : List (String × Val) → List (String × Val) → Bool
  | [], _ => true
  | (k, v) :: rest, m2 =>
      (match lookupD m2 k with
       | some w => pyEq v w
       | none => false)
        && pyEqFields rest m2
end

mutual
/-- Well-formedness: every dictionary anywhere in the value has pairwise
distinct keys, as is automatic for values parsed from JSON into Python
dictionaries. -/
def wfVal : Val → Bool
  | .prim _ => true
  | .list xs => wfList xs
  | .dict m => keysNodupB (keysOf m) && wfFields m

def wfList : List Val → Bool
  | [] => true
  | x :: xs => wfVal x && wfList xs

def wfFields : List (String × Val) → Bool
  | [] => true
  | (_, v) :: rest => wfVal v && wfFields rest
end

/-- Keys of the filtered dictionary (dashboard_identifier removed). -/
def filtKeys (m : List (String × Val)) : List String :=
  (keysOf m).filter (fun k => k ≠ did)

/-- Equality of two key lists as sets, as Python compares set(keys1) with
set(keys2). -/
def keySetEq (l1 l2 : List String) : Bool :=
  l1.all l2.contains && l2.all l1.contains

mutual
/-- Transcription of deep_compare_dicts: two non-dictionaries are compared
with Python equality; two dictionaries are compared on the filtered key sets
and then field by field, recursing into dictionary-valued fields and using
plain equality for everything else. -/
def deepCompare : Val → Val → Bool
  | .dict m1, .dict m2 => keySetEq (filtKeys m1) (filtKeys m2) && cmpFields m1 m2
  | a, b => pyEq a b
  termination_by a _ => (sizeOf a, 0)

/-- The loop over dict1_filtered of deep_compare_dicts.  Looking the key up in
the unfiltered second dictionary is equivalent because the iterated keys are
never the excluded one; the missing-key branch is unreachable under the key
set equality checked first. -/
def cmpFields : List (String × Val) → List (String × Val) → Bool
  | [], _ => true
  | (k, v1) :: rest, m2 =>
      (if k = did then true
       else
         match lookupD m2 k with
         | some v2 => cmpOne v1 v2
         | none => false)
        && cmpFields rest m2
  termination_by m1 _ => (sizeOf m1, 0)

/-- The three-way comparison of one shared field of deep_compare_dicts:
recurse when both values are dictionaries, otherwise plain equality (for two
lists this is element-by-element equality, exactly what Python != does). -/
def cmpOne : Val → Val → Bool
  | .dict a1, .dict a2 => deepCompare (.dict a1) (.dict a2)
  | a, b => pyEq a b
  termination_by a _ => (sizeOf a, 1)
end

/-- One entry of the difference report.  The report strings of the source are
in bijection with these structured entries (path plus the reported values);
the four constructors correspond to the four append sites of
find_dict_differences. -/
inductive DiffEntry where
  | missingLeft (path : String) (productVal : Val)
  | missingRight (path : String) (clientVal : Val)
  | listMismatch (path : String) (clientVal productVal : Val)
  | valueMismatch (path : String) (clientVal productVal : Val)
  deriving DecidableEq

/-- Union of the filtered key sets, as Python set(keys1) | set(keys2): first
occurrences kept, each key once. -/
def unionKeys (m1 m2 : List (String × Val)) : List String :=
  (filtKeys m1 ++ filtKeys m2).dedup

/-- current_path construction of find_dict_differences. -/
def joinPath (path k : String) : String := if path = "" then k else path ++ "." ++ k

theorem string_sizeOf_pos (s : String) : 0 < sizeOf s := by
  cases s
  simp

theorem sizeOf_lookupD_le (m : List (String × Val)) (k : String) :
    sizeOf (lookupD m k) ≤ sizeOf m := by
  induction m with
  | nil => simp [lookupD]
  | cons hd tl ih =>
      obtain ⟨k0, v0⟩ := hd
      by_cases hk : k0 = k
      · have h1 := string_sizeOf_pos k0
        simp [lookupD, hk]
        omega
      · simp [lookupD, hk]
        omega

mutual
/-- Transcription of find_dict_differences, parameterized by the iteration
order of the Python set of keys: `ord` receives the union of the filtered key
lists and yields the order in which the set is traversed (an arbitrary
permutation, since the set order of CPython for strings depends on the hash
seed of the process). -/
def findDiffsO (ord : List String → List String) : Val → Val → String → List DiffEntry
  | .dict m1, .dict m2, path => diffKeys ord (ord (unionKeys m1 m2)) m1 m2 path
  | a, b, path => if pyEq a b then [] else [.valueMismatch path a b]
  termination_by a _ _ => (sizeOf a, 0)
  decreasing_by
    all_goals simp_wf
    apply Prod.Lex.left
    simp

/-- The loop over all_keys of find_dict_differences. -/
def diffKeys (ord : List String → List String) :
    List String → List (String × Val) → List (String × Val) → String → List DiffEntry
  | [], _, _, _ => []
  | k :: ks, m1, m2, path =>
      diffSeg ord (lookupD m1 k) (lookupD m2 k) (joinPath path k)
        ++ diffKeys ord ks m1 m2 path
  termination_by ks m1 _ _ => (sizeOf m1, ks.length + 2)
  decreasing_by
    all_goals simp_wf
    · have h2 : sizeOf (lookupD m1 k) ≤ sizeOf m1 := sizeOf_lookupD_le m1 k
      rcases Nat.lt_or_ge (sizeOf (lookupD m1 k)) (sizeOf m1) with h3 | h3
      · exact Prod.Lex.left _ _ h3
      · have h4 : sizeOf (lookupD m1 k) = sizeOf m1 := Nat.le_antisymm h2 h3
        rw [h4]
        apply Prod.Lex.right
        omega
    · apply Prod.Lex.right
      omega

/-- The body of the loop of find_dict_differences for one key of the union,
applied to the two looked-up values: an entry for a key missing on either
side, a recursive report for two dictionary values, a single atomic entry for
two differing lists, and a value mismatch otherwise (also when only one side
is a dictionary). -/
def diffSeg (ord : List String → List String) :
    Option Val → Option Val → String → List DiffEntry
  | none, some v2, curPath => [.missingLeft curPath v2]
  | some v1, none, curPath => [.missingRight curPath v1]
  | some v1, some v2, curPath =>
      (match v1, v2 with
       | .dict a1, .dict a2 => findDiffsO ord (.dict a1) (.dict a2) curPath
       | .list a1, .list a2 =>
           if pyEq (.list a1) (.list a2) then []
           else [.listMismatch curPath (.list a1) (.list a2)]
       | w1, w2 => if pyEq w1 w2 then [] else [.valueMismatch curPath w1 w2])
  | none, none, _ => []
  termination_by o1 _ _ => (sizeOf o1, 1)
  decreasing_by
    all_goals simp_wf
    apply Prod.Lex.left
    omega
end

mutual
/-- Erase every dashboard_identifier field reachable through dictionaries
only; list contents are left untouched, mirroring the reach of the exclusion
in the comparison functions (lists are compared atomically with full
equality). -/
def eraseND : Val → Val
  | .prim s => .prim s
  | .list xs => .list xs
  | .dict m => .dict (eraseNDFields m)

def eraseNDFields : List (String × Val) → List (String × Val)
  | [] => []
  | (k, v) :: rest =>
      if k = did then eraseNDFields rest
      else (k, eraseND v) :: eraseNDFields rest
end

mutual
/-- Erase every dashboard_identifier field anywhere in the value, including
inside list elements: the natural formalization of two values differing only
in the value of the excluded key, regardless of where in the nested structure it
occurs. -/
def eraseDeep : Val → Val
  | .prim s => .prim s
  | .list xs => .list (eraseDeepList xs)
  | .dict m => .dict (eraseDeepFields m)

def eraseDeepList : List Val → List Val
  | [] => []
  | x :: xs => eraseDeep x :: eraseDeepList xs

def eraseDeepFields : List (String × Val) → List (String × Val)
  | [] => []
  | (k, v) :: rest =>
      if k = did then eraseDeepFields rest
      else (k, eraseDeep v) :: eraseDeepFields rest
end

theorem keysNodupB_iff (l : List String) : keysNodupB l = true ↔ l.Nodup := by
  induction l with
  | nil => simp [keysNodupB]
  | cons k ks ih => simp [keysNodupB, ih, List.nodup_cons]

theorem wfVal_dict_nodup {m : List (String × Val)} (h : wfVal (.dict m) = true) :
    (keysOf m).Nodup := by
  rw [wfVal, Bool.and_eq_true] at h
  exact (keysNodupB_iff _).mp h.1

theorem wfVal_dict_fields {m : List (String × Val)} (h : wfVal (.dict m) = true) :
    wfFields m = true := by
  rw [wfVal, Bool.and_eq_true] at h
  exact h.2

theorem wfFields_mem {m : List (String × Val)} (h : wfFields m = true) {p : String × Val}
    (hp : p ∈ m) : wfVal p.2 = true := by
  induction m with
  | nil => simp at hp
  | cons hd tl ih =>
      obtain ⟨k, v⟩ := hd
      rw [wfFields, Bool.and_eq_true] at h
      rcases List.mem_cons.mp hp with h1 | h1
      · subst h1
        exact h.1
      · exact ih h.2 h1

theorem wfList_mem {xs : List Val} (h : wfList xs = true) {x : Val} (hx : x ∈ xs) :
    wfVal x = true := by
  induction xs with
  | nil => simp at hx
  | cons y ys ih =>
      rw [wfList, Bool.and_eq_true] at h
      rcases List.mem_cons.mp hx with h1 | h1
      · subst h1
        exact h.1
      · exact ih h.2 h1

theorem wfVal_of_lookupD {m : List (String × Val)} (h : wfVal (.dict m) = true) {k : String}
    {v : Val} (hl : lookupD m k = some v) : wfVal v = true :=
  wfFields_mem (wfVal_dict_fields h) (mem_of_lookupD_eq hl)

theorem mem_filtKeys {m : List (String × Val)} {k : String} :
    k ∈ filtKeys m ↔ k ∈ keysOf m ∧ k ≠ did := by
  simp [filtKeys]

theorem keySetEq_iff {l1 l2 : List String} :
    keySetEq l1 l2 = true ↔ ∀ k, k ∈ l1 ↔ k ∈ l2 := by
  simp only [keySetEq, Bool.and_eq_true, List.all_eq_true]
  constructor
  · intro ⟨h1, h2⟩ k
    constructor
    · intro hk
      simpa using h1 k hk
    · intro hk
      simpa using h2 k hk
  · intro h
    constructor
    · intro k hk
      simpa using (h k).mp hk
    · intro k hk
      simpa using (h k).mpr hk

theorem cmpFields_true_iff {m1 m2 : List (String × Val)} :
    cmpFields m1 m2 = true ↔
      ∀ p ∈ m1, p.1 ≠ did →
        ∃ v2, lookupD m2 p.1 = some v2 ∧ cmpOne p.2 v2 = true := by
  induction m1 with
  | nil => simp [cmpFields]
  | cons hd tl ih =>
      obtain ⟨k, v1⟩ := hd
      rw [cmpFields, Bool.and_eq_true, ih]
      constructor
      · intro ⟨h1, h2⟩ p hp hpd
        rcases List.mem_cons.mp hp with h3 | h3
        · subst h3
          simp only at hpd
          rw [if_neg hpd] at h1
          cases h4 : lookupD m2 k with
          | none => rw [h4] at h1; cases h1
          | some v2 =>
              rw [h4] at h1
              exact ⟨v2, rfl, h1⟩
        · exact h2 p h3 hpd
      · intro h
        constructor
        · by_cases hpd : k = did
          · rw [if_pos hpd]
          · rw [if_neg hpd]
            obtain ⟨v2, h4, h5⟩ := h (k, v1) (List.mem_cons_self _ _) hpd
            rw [h4]
            exact h5
        · intro p hp hpd
          exact h p (List.mem_cons_of_mem _ hp) hpd

theorem pyEqFields_true_iff {m1 m2 : List (String × Val)} :
    pyEqFields m1 m2 = true ↔
      ∀ p ∈ m1, ∃ w, lookupD m2 p.1 = some w ∧ pyEq p.2 w = true := by
  induction m1 with
  | nil => simp [pyEqFields]
  | cons hd tl ih =>
      obtain ⟨k, v⟩ := hd
      rw [pyEqFields, Bool.and_eq_true, ih]
      constructor
      · intro ⟨h1, h2⟩ p hp
        rcases List.mem_cons.mp hp with h3 | h3
        · subst h3
          cases h4 : lookupD m2 k with
          | none => rw [h4] at h1; cases h1
          | some w =>
              rw [h4] at h1
              exact ⟨w, rfl, h1⟩
        · exact h2 p h3
      · intro h
        constructor
        · obtain ⟨w, h4, h5⟩ := h (k, v) (List.mem_cons_self _ _)
          rw [h4]
          exact h5
        · intro p hp
          exact h p (List.mem_cons_of_mem _ hp)

theorem pyEqList_refl_of {xs : List Val} (h : ∀ x ∈ xs, pyEq x x = true) :
    pyEqList xs xs = true := by
  induction xs with
  | nil => rw [pyEqList]
  | cons y ys ih =>
      rw [pyEqList, Bool.and_eq_true]
      exact ⟨h y (List.mem_cons_self _ _), ih fun x hx => h x (List.mem_cons_of_mem _ hx)⟩

theorem contains_self_all (l : List String) : l.all l.contains = true := by
  rw [List.all_eq_true]
  intro k hk
  simpa using hk

/-- Reflexivity of the modelled Python equality on well-formed values. -/
theorem pyEq_refl : ∀ v : Val, wfVal v = true → pyEq v v = true := by
  have main : ∀ n (v : Val), sizeOf v ≤ n → wfVal v = true → pyEq v v = true := by
    intro n
    induction n with
    | zero =>
        intro v hv
        cases v <;> simp at hv
    | succ n ih =>
        intro v hv hwf
        cases v with
        | prim s => simp [pyEq]
        | list xs =>
            rw [pyEq]
            refine pyEqList_refl_of fun x hx => ?_
            have h1 := List.sizeOf_lt_of_mem hx
            have h2 : sizeOf (Val.list xs) = 1 + sizeOf xs := by simp
            exact ih x (by omega) (wfList_mem hwf hx)
        | dict m =>
            rw [pyEq, Bool.and_eq_true, Bool.and_eq_true]
            refine ⟨⟨contains_self_all _, contains_self_all _⟩, ?_⟩
            rw [pyEqFields_true_iff]
            intro p hp
            obtain ⟨k, v⟩ := p
            refine ⟨v, lookupD_eq_of_mem_nodup hp (wfVal_dict_nodup hwf), ?_⟩
            have h1 := List.sizeOf_lt_of_mem hp
            have h3 : sizeOf v < sizeOf (k, v) := by simp
            have h2 : sizeOf (Val.dict m) = 1 + sizeOf m := by simp
            exact ih v (by omega) (wfFields_mem (wfVal_dict_fields hwf) hp)
  intro v
  exact main (sizeOf v) v (Nat.le_refl _)

/-- Admissible set-iteration orders: any permutation of the computed key
union.  CPython iterates a set of strings in an order determined by the hash
seed of the process; every such order is a permutation of the union. -/
def Adm (ord : List String → List String) : Prop :=
  ∀ l : List String, (ord l).Perm l

theorem Adm_id : Adm id := fun l => List.Perm.refl l

theorem Adm_reverse : Adm (fun l => l.reverse) := fun l => List.reverse_perm l

theorem diffKeys_eq_flatten (ord : List String → List String) (ks : List String)
    (m1 m2 : List (String × Val)) (path : String) :
    diffKeys ord ks m1 m2 path
      = (ks.map (fun k =>
          diffSeg ord (lookupD m1 k) (lookupD m2 k) (joinPath path k))).flatten := by
  induction ks with
  | nil => rw [diffKeys]; simp
  | cons k ks ih => rw [diffKeys, ih]; simp

theorem diffKeys_nil_iff {ord : List String → List String} {ks : List String}
    {m1 m2 : List (String × Val)} {path : String} :
    diffKeys ord ks m1 m2 path = []
      ↔ ∀ k ∈ ks, diffSeg ord (lookupD m1 k) (lookupD m2 k) (joinPath path k) = [] := by
  rw [diffKeys_eq_flatten]
  simp

theorem mem_keysOf_of_lookupD {β : Type} {m : List (String × β)} {k : String} {v : β}
    (h : lookupD m k = some v) : k ∈ keysOf m := by
  have h1 := mem_of_lookupD_eq h
  simpa [keysOf] using List.mem_map_of_mem (fun p => p.1) h1

theorem lookupD_some_of_mem_keys {β : Type} {m : List (String × β)} {k : String}
    (h : k ∈ keysOf m) : ∃ v, lookupD m k = some v := by
  have h1 := lookupD_isSome_of_mem_keys h
  cases h2 : lookupD m k with
  | none => rw [h2] at h1; cases h1
  | some v => exact ⟨v, rfl⟩

theorem mem_unionKeys {m1 m2 : List (String × Val)} {k : String} :
    k ∈ unionKeys m1 m2 ↔ (k ∈ keysOf m1 ∨ k ∈ keysOf m2) ∧ k ≠ did := by
  simp only [unionKeys, List.mem_dedup, List.mem_append, mem_filtKeys]
  constructor
  · intro h
    rcases h with ⟨h1, h2⟩ | ⟨h1, h2⟩
    · exact ⟨Or.inl h1, h2⟩
    · exact ⟨Or.inr h1, h2⟩
  · intro ⟨h1, h2⟩
    rcases h1 with h1 | h1
    · exact Or.inl ⟨h1, h2⟩
    · exact Or.inr ⟨h1, h2⟩

theorem diffSeg_missingLeft (ord : List String → List String) (v2 : Val) (p : String) :
    diffSeg ord none (some v2) p = [.missingLeft p v2] := by
  simp [diffSeg]

theorem diffSeg_missingRight (ord : List String → List String) (v1 : Val) (p : String) :
    diffSeg ord (some v1) none p = [.missingRight p v1] := by
  simp [diffSeg]

theorem diffSeg_none_none (ord : List String → List String) (p : String) :
    diffSeg ord none none p = [] := by
  simp [diffSeg]

theorem diffSeg_dict (ord : List String → List String) (a1 a2 : List (String × Val))
    (p : String) :
    diffSeg ord (some (.dict a1)) (some (.dict a2)) p
      = findDiffsO ord (.dict a1) (.dict a2) p := by
  simp [diffSeg]

theorem sizeOf_val_of_lookupD {m : List (String × Val)} {k : String} {v : Val}
    (h : lookupD m k = some v) : sizeOf v < sizeOf m := by
  have h1 := List.sizeOf_lt_of_mem (mem_of_lookupD_eq h)
  have h2 : sizeOf (k, v) = 1 + sizeOf k + sizeOf v := by simp
  omega

theorem deepCompare_iff_aux :
    ∀ n, ∀ A B : Val, sizeOf A ≤ n → wfVal A = true → wfVal B = true →
      ∀ ord, Adm ord → ∀ path,
        (deepCompare A B = true ↔ findDiffsO ord A B path = []) := by
  intro n
  induction n with
  | zero =>
      intro A B hA
      cases A <;> simp at hA
  | succ n ih =>
      intro A B hA hwfA hwfB ord hord path
      cases A with
      | prim s =>
          cases B <;>
            · simp only [deepCompare, findDiffsO]
              split <;> rename_i hpe <;> simp [hpe]
      | list xs =>
          cases B <;>
            · simp only [deepCompare, findDiffsO]
              split <;> rename_i hpe <;> simp [hpe]
      | dict m1 =>
          cases B with
          | prim t =>
              simp only [deepCompare, findDiffsO]
              split <;> rename_i hpe <;> simp [hpe]
          | list ys =>
              simp only [deepCompare, findDiffsO]
              split <;> rename_i hpe <;> simp [hpe]
          | dict m2 =>
              rw [deepCompare, findDiffsO, Bool.and_eq_true, diffKeys_nil_iff]
              have hmemord : ∀ k, k ∈ ord (unionKeys m1 m2) ↔ k ∈ unionKeys m1 m2 :=
                fun k => (hord _).mem_iff
              constructor
              · intro ⟨hks, hcf⟩ k hk
                rw [hmemord] at hk
                obtain ⟨hk1, hkd⟩ := mem_unionKeys.mp hk
                have hiff := keySetEq_iff.mp hks k
                have hkboth : k ∈ keysOf m1 ∧ k ∈ keysOf m2 := by
                  rcases hk1 with h | h
                  · exact ⟨h, (mem_filtKeys.mp (hiff.mp (mem_filtKeys.mpr ⟨h, hkd⟩))).1⟩
                  · exact ⟨(mem_filtKeys.mp (hiff.mpr (mem_filtKeys.mpr ⟨h, hkd⟩))).1, h⟩
                obtain ⟨v1, hv1⟩ := lookupD_some_of_mem_keys hkboth.1
                obtain ⟨v2, hv2⟩ := lookupD_some_of_mem_keys hkboth.2
                rw [hv1, hv2]
                obtain ⟨v2', hv2', hone⟩ :=
                  cmpFields_true_iff.mp hcf (k, v1) (mem_of_lookupD_eq hv1) hkd
                rw [hv2] at hv2'
                obtain rfl : v2 = v2' := by injection hv2'
                cases v1 with
                | dict a1 =>
                    cases v2 with
                    | dict a2 =>
                        rw [diffSeg_dict]
                        rw [cmpOne] at hone
                        have hsz : sizeOf (Val.dict a1) ≤ n := by
                          have h1 := sizeOf_val_of_lookupD hv1
                          have h2 : sizeOf (Val.dict m1) = 1 + sizeOf m1 := by simp
                          omega
                        exact (ih _ _ hsz (wfVal_of_lookupD hwfA hv1)
                          (wfVal_of_lookupD hwfB hv2) ord hord _).mp hone
                    | prim t2 => simp [cmpOne, pyEq] at hone
                    | list ys2 => simp [cmpOne, pyEq] at hone
                | prim s1 =>
                    cases v2 <;>
                      · simp only [cmpOne] at hone
                        simp [diffSeg, hone]
                | list xs1 =>
                    cases v2 <;>
                      · simp only [cmpOne] at hone
                        simp [diffSeg, hone]
              · intro hsegs
                constructor
                · rw [keySetEq_iff]
                  intro k
                  constructor
                  · intro hkf
                    obtain ⟨hk1, hkd⟩ := mem_filtKeys.mp hkf
                    have hku : k ∈ ord (unionKeys m1 m2) :=
                      (hmemord k).mpr (mem_unionKeys.mpr ⟨Or.inl hk1, hkd⟩)
                    have hseg := hsegs k hku
                    obtain ⟨v1, hv1⟩ := lookupD_some_of_mem_keys hk1
                    rw [hv1] at hseg
                    cases hv2 : lookupD m2 k with
                    | none =>
                        rw [hv2, diffSeg_missingRight] at hseg
                        cases hseg
                    | some v2 => exact mem_filtKeys.mpr ⟨mem_keysOf_of_lookupD hv2, hkd⟩
                  · intro hkf
                    obtain ⟨hk2, hkd⟩ := mem_filtKeys.mp hkf
                    have hku : k ∈ ord (unionKeys m1 m2) :=
                      (hmemord k).mpr (mem_unionKeys.mpr ⟨Or.inr hk2, hkd⟩)
                    have hseg := hsegs k hku
                    obtain ⟨v2, hv2⟩ := lookupD_some_of_mem_keys hk2
                    rw [hv2] at hseg
                    cases hv1 : lookupD m1 k with
                    | none =>
                        rw [hv1, diffSeg_missingLeft] at hseg
                        cases hseg
                    | some v1 => exact mem_filtKeys.mpr ⟨mem_keysOf_of_lookupD hv1, hkd⟩
                · rw [cmpFields_true_iff]
                  intro p hp hpd
                  obtain ⟨k, v1⟩ := p
                  simp only at hpd
                  have hv1 : lookupD m1 k = some v1 :=
                    lookupD_eq_of_mem_nodup hp (wfVal_dict_nodup hwfA)
                  have hku : k ∈ ord (unionKeys m1 m2) :=
                    (hmemord k).mpr
                      (mem_unionKeys.mpr ⟨Or.inl (mem_keysOf_of_lookupD hv1), hpd⟩)
                  have hseg := hsegs k hku
                  rw [hv1] at hseg
                  cases hv2 : lookupD m2 k with
                  | none =>
                      rw [hv2, diffSeg_missingRight] at hseg
                      cases hseg
                  | some v2 =>
                      refine ⟨v2, rfl, ?_⟩
                      rw [hv2] at hseg
                      cases v1 with
                      | dict a1 =>
                          cases v2 with
                          | dict a2 =>
                              rw [diffSeg_dict] at hseg
                              rw [cmpOne]
                              have hsz : sizeOf (Val.dict a1) ≤ n := by
                                have h1 := sizeOf_val_of_lookupD hv1
                                have h2 : sizeOf (Val.dict m1) = 1 + sizeOf m1 := by simp
                                omega
                              exact (ih _ _ hsz (wfVal_of_lookupD hwfA hv1)
                                (wfVal_of_lookupD hwfB hv2) ord hord _).mpr hseg
                          | prim t2 => simp [diffSeg, pyEq] at hseg
                          | list ys2 => simp [diffSeg, pyEq] at hseg
                      | prim s1 =>
                          by_cases hpe : pyEq (Val.prim s1) v2 = true
                          · cases v2 <;> simp [cmpOne, hpe]
                          · cases v2 <;> simp [diffSeg, hpe] at hseg
                      | list xs1 =>
                          by_cases hpe : pyEq (Val.list xs1) v2 = true
                          · cases v2 <;> simp [cmpOne, hpe]
                          · cases v2 <;> simp [diffSeg, hpe] at hseg

theorem forall₂_perm_map {α β : Type} (f g : α → List β) (l : List α)
    (h : ∀ x ∈ l, (f x).Perm (g x)) :
    List.Forall₂ (fun a b => a.Perm b) (l.map f) (l.map g) := by
  induction l with
  | nil => exact List.Forall₂.nil
  | cons x xs ih =>
      exact List.Forall₂.cons (h x (List.mem_cons_self _ _))
        (ih fun y hy => h y (List.mem_cons_of_mem _ hy))

theorem findDiffsO_perm_aux :
    ∀ n, ∀ A B : Val, sizeOf A ≤ n → ∀ ord1 ord2, Adm ord1 → Adm ord2 → ∀ path,
      (findDiffsO ord1 A B path).Perm (findDiffsO ord2 A B path) := by
  intro n
  induction n with
  | zero =>
      intro A B hA
      cases A <;> simp at hA
  | succ n ih =>
      intro A B hA ord1 ord2 hord1 hord2 path
      cases A with
      | prim s =>
          cases B <;>
            · simp only [findDiffsO]
              exact List.Perm.refl _
      | list xs =>
          cases B <;>
            · simp only [findDiffsO]
              exact List.Perm.refl _
      | dict m1 =>
          cases B with
          | prim t =>
              simp only [findDiffsO]
              exact List.Perm.refl _
          | list ys =>
              simp only [findDiffsO]
              exact List.Perm.refl _
          | dict m2 =>
              rw [findDiffsO, findDiffsO, diffKeys_eq_flatten, diffKeys_eq_flatten]
              have hseg : ∀ k,
                  (diffSeg ord1 (lookupD m1 k) (lookupD m2 k) (joinPath path k)).Perm
                    (diffSeg ord2 (lookupD m1 k) (lookupD m2 k) (joinPath path k)) := by
                intro k
                cases hv1 : lookupD m1 k with
                | none =>
                    cases hv2 : lookupD m2 k with
                    | none => simp [diffSeg]
                    | some v2 => simp [diffSeg]
                | some v1 =>
                    cases hv2 : lookupD m2 k with
                    | none => simp [diffSeg]
                    | some v2 =>
                        cases v1 with
                        | dict a1 =>
                            cases v2 with
                            | dict a2 =>
                                rw [diffSeg_dict, diffSeg_dict]
                                have hsz : sizeOf (Val.dict a1) ≤ n := by
                                  have h1 := sizeOf_val_of_lookupD hv1
                                  have h2 : sizeOf (Val.dict m1) = 1 + sizeOf m1 := by simp
                                  omega
                                exact ih _ _ hsz ord1 ord2 hord1 hord2 _
                            | prim t2 => simp [diffSeg]
                            | list ys2 => simp [diffSeg]
                        | prim s1 => cases v2 <;> simp [diffSeg]
                        | list xs1 => cases v2 <;> simp [diffSeg]
              have hperm : (ord1 (unionKeys m1 m2)).Perm (ord2 (unionKeys m1 m2)) :=
                (hord1 _).trans (hord2 _).symm
              refine List.Perm.trans (List.Perm.flatten (List.Perm.map _ hperm)) ?_
              exact List.Perm.flatten_congr
                (forall₂_perm_map _ _ (ord2 (unionKeys m1 m2)) fun k _ => hseg k)

theorem keysOf_eraseNDFields (m : List (String × Val)) :
    keysOf (eraseNDFields m) = filtKeys m := by
  induction m with
  | nil => simp [eraseNDFields, filtKeys, keysOf]
  | cons hd tl ih =>
      obtain ⟨k, v⟩ := hd
      by_cases hk : k = did
      · simp [eraseNDFields, hk, filtKeys, keysOf] at ih ⊢
        simpa [filtKeys, keysOf] using ih
      · simp [eraseNDFields, hk, filtKeys, keysOf] at ih ⊢
        simpa [filtKeys, keysOf] using ih

theorem lookupD_eraseNDFields (m : List (String × Val)) (k : String) (hk : k ≠ did) :
    lookupD (eraseNDFields m) k = (lookupD m k).map eraseND := by
  induction m with
  | nil => simp [eraseNDFields, lookupD]
  | cons hd tl ih =>
      obtain ⟨k0, v⟩ := hd
      by_cases h0 : k0 = did
      · have hne : k0 ≠ k := fun hh => hk (hh ▸ h0)
        simp [eraseNDFields, h0, lookupD, hne, ih, Ne.symm hk]
      · by_cases h1 : k0 = k
        · simp [eraseNDFields, h0, lookupD, h1, hk]
        · simp [eraseNDFields, h0, lookupD, h1, ih]

theorem eraseND_prim_eq {B : Val} {s : String} (h : Val.prim s = eraseND B) :
    B = Val.prim s := by
  cases B with
  | prim t => rw [eraseND] at h; exact (congrArg Val.prim (Val.prim.inj h)).symm
  | list ys => rw [eraseND] at h; cases h
  | dict m => rw [eraseND] at h; cases h

theorem eraseND_list_eq {B : Val} {xs : List Val} (h : Val.list xs = eraseND B) :
    B = Val.list xs := by
  cases B with
  | prim t => rw [eraseND] at h; cases h
  | list ys => rw [eraseND] at h; exact (congrArg Val.list (Val.list.inj h)).symm
  | dict m => rw [eraseND] at h; cases h

theorem eraseND_dict_eq {B : Val} {m : List (String × Val)}
    (h : Val.dict m = eraseND B) :
    ∃ m2, B = Val.dict m2 ∧ m = eraseNDFields m2 := by
  cases B with
  | prim t => rw [eraseND] at h; cases h
  | list ys => rw [eraseND] at h; cases h
  | dict m2 => exact ⟨m2, rfl, Val.dict.inj (by rw [eraseND] at h; exact h)⟩

theorem eraseND_eq_deepCompare_aux :
    ∀ n, ∀ A B : Val, sizeOf A ≤ n → wfVal A = true → wfVal B = true →
      eraseND A = eraseND B → deepCompare A B = true := by
  intro n
  induction n with
  | zero =>
      intro A B hA
      cases A <;> simp at hA
  | succ n ih =>
      intro A B hA hwfA hwfB heq
      cases A with
      | prim s =>
          rw [eraseND] at heq
          obtain rfl : B = Val.prim s := eraseND_prim_eq heq
          simp [deepCompare, pyEq]
      | list xs =>
          rw [eraseND] at heq
          obtain rfl : B = Val.list xs := eraseND_list_eq heq
          have hr := pyEq_refl (Val.list xs) hwfA
          simpa [deepCompare] using hr
      | dict m1 =>
          rw [eraseND] at heq
          obtain ⟨m2, hB, hm⟩ := eraseND_dict_eq heq
          subst hB
          rw [deepCompare, Bool.and_eq_true]
          constructor
          · have hkeys : filtKeys m1 = filtKeys m2 := by
              rw [← keysOf_eraseNDFields, ← keysOf_eraseNDFields, ← hm]
            rw [hkeys]
            exact keySetEq_iff.mpr fun k => Iff.rfl
          · rw [cmpFields_true_iff]
            intro p hp hpd
            obtain ⟨k, v1⟩ := p
            simp only at hpd
            have hv1 : lookupD m1 k = some v1 :=
              lookupD_eq_of_mem_nodup hp (wfVal_dict_nodup hwfA)
            have hl : (lookupD m1 k).map eraseND = (lookupD m2 k).map eraseND := by
              rw [← lookupD_eraseNDFields m1 k hpd, ← lookupD_eraseNDFields m2 k hpd, hm]
            rw [hv1] at hl
            cases hv2 : lookupD m2 k with
            | none =>
                rw [hv2] at hl
                simp at hl
            | some v2 =>
                rw [hv2] at hl
                have hev : eraseND v1 = eraseND v2 := by simpa using hl
                refine ⟨v2, rfl, ?_⟩
                cases v1 with
                | prim s1 =>
                    rw [eraseND] at hev
                    obtain rfl : v2 = Val.prim s1 := eraseND_prim_eq hev
                    simp [cmpOne, pyEq]
                | list xs1 =>
                    rw [eraseND] at hev
                    obtain rfl : v2 = Val.list xs1 := eraseND_list_eq hev
                    have hr := pyEq_refl (Val.list xs1) (wfVal_of_lookupD hwfA hv1)
                    simpa [cmpOne] using hr
                | dict a1 =>
                    rw [eraseND] at hev
                    obtain ⟨a2, hv2eq, ha⟩ := eraseND_dict_eq hev
                    subst hv2eq
                    rw [cmpOne]
                    have hsz : sizeOf (Val.dict a1) ≤ n := by
                      have h1 := sizeOf_val_of_lookupD hv1
                      have h2 : sizeOf (Val.dict m1) = 1 + sizeOf m1 := by simp
                      omega
                    refine ih _ _ hsz (wfVal_of_lookupD hwfA hv1)
                      (wfVal_of_lookupD hwfB hv2) ?_
                    rw [eraseND, eraseND, ha]

/-- C10: the boolean comparator and the report generator agree: on well-formed
inputs (every Python dictionary has duplicate-free keys), deep_compare_dicts
returns true exactly when find_dict_differences returns an empty list, for
every path prefix and every admissible set-iteration order. -/
theorem deepCompare_iff_findDiffs_nil (A B : Val) (hwfA : wfVal A = true)
    (hwfB : wfVal B = true) (ord : List String → List String) (hord : Adm ord)
    (path : String) : deepCompare A B = true ↔ findDiffsO ord A B path = [] :=
  deepCompare_iff_aux (sizeOf A) A B (Nat.le_refl _) hwfA hwfB ord hord path

theorem deepCompare_iff_findDiffs_nil_witness :
    wfVal (Val.dict [("caption", .prim "a")]) = true
    ∧ wfVal (Val.dict [("caption", .prim "b")]) = true
    ∧ (deepCompare (Val.dict [("caption", .prim "a")]) (Val.dict [("caption", .prim "b")]) = true
        ↔ findDiffsO id (Val.dict [("caption", .prim "a")])
            (Val.dict [("caption", .prim "b")]) "" = []) :=
  ⟨by decide, by decide,
    deepCompare_iff_findDiffs_nil (Val.dict [("caption", .prim "a")])
      (Val.dict [("caption", .prim "b")]) (by decide) (by decide) id Adm_id ""⟩

/-- C8: reflexivity of the comparison: a well-formed record compared with
itself is an exact match and yields an empty difference report for every path
prefix and every admissible set-iteration order. -/
theorem compare_refl (A : Val) (h : wfVal A = true) :
    deepCompare A A = true
    ∧ ∀ ord, Adm ord → ∀ path, findDiffsO ord A A path = [] := by
  have h1 : deepCompare A A = true :=
    eraseND_eq_deepCompare_aux (sizeOf A) A A (Nat.le_refl _) h h rfl
  refine ⟨h1, fun ord hord path => ?_⟩
  exact (deepCompare_iff_aux (sizeOf A) A A (Nat.le_refl _) h h ord hord path).mp h1

theorem compare_refl_witness :
    wfVal (Val.dict [("caption", .prim "Host Name"), (did, .dict [("VRA", .prim "1")])]) = true
    ∧ deepCompare
        (Val.dict [("caption", .prim "Host Name"), (did, .dict [("VRA", .prim "1")])])
        (Val.dict [("caption", .prim "Host Name"), (did, .dict [("VRA", .prim "1")])]) = true
    ∧ findDiffsO id
        (Val.dict [("caption", .prim "Host Name"), (did, .dict [("VRA", .prim "1")])])
        (Val.dict [("caption", .prim "Host Name"), (did, .dict [("VRA", .prim "1")])]) "" = [] :=
  ⟨by decide,
    (compare_refl (Val.dict [("caption", .prim "Host Name"), (did, .dict [("VRA", .prim "1")])])
      (by decide)).1,
    (compare_refl (Val.dict [("caption", .prim "Host Name"), (did, .dict [("VRA", .prim "1")])])
      (by decide)).2 id Adm_id ""⟩

/-- C6 (amended): two well-formed records that differ only in the value of the
excluded key report an exact match (true flag, empty report), provided every
occurrence of the excluded key sits at dictionary nesting not inside any list:
formally, the records become equal once dashboard_identifier fields reachable
through dictionaries alone are erased.  When the differing excluded key lies
inside a list element the comparison treats the list atomically with full
equality and reports a mismatch. -/
theorem excluded_key_spec (A B : Val) (hwfA : wfVal A = true) (hwfB : wfVal B = true)
    (h : eraseND A = eraseND B) :
    deepCompare A B = true ∧ ∀ ord, Adm ord → ∀ path, findDiffsO ord A B path = [] := by
  have h1 : deepCompare A B = true :=
    eraseND_eq_deepCompare_aux (sizeOf A) A B (Nat.le_refl _) hwfA hwfB h
  refine ⟨h1, fun ord hord path => ?_⟩
  exact (deepCompare_iff_aux (sizeOf A) A B (Nat.le_refl _) hwfA hwfB ord hord path).mp h1

theorem excluded_key_spec_witness :
    wfVal (Val.dict [("caption", .prim "Host Name"), (did, .dict [("VRA", .prim "1")])]) = true
    ∧ wfVal (Val.dict [("caption", .prim "Host Name"), (did, .dict [("VRA", .prim "2")])]) = true
    ∧ eraseND (Val.dict [("caption", .prim "Host Name"), (did, .dict [("VRA", .prim "1")])])
        = eraseND (Val.dict [("caption", .prim "Host Name"), (did, .dict [("VRA", .prim "2")])])
    ∧ deepCompare
        (Val.dict [("caption", .prim "Host Name"), (did, .dict [("VRA", .prim "1")])])
        (Val.dict [("caption", .prim "Host Name"), (did, .dict [("VRA", .prim "2")])]) = true :=
  ⟨by decide, by decide, by decide,
    (excluded_key_spec
      (Val.dict [("caption", .prim "Host Name"), (did, .dict [("VRA", .prim "1")])])
      (Val.dict [("caption", .prim "Host Name"), (did, .dict [("VRA", .prim "2")])])
      (by decide) (by decide) (by decide)).1⟩

/-- C6 (counterexample): two well-formed records differing only in the value
of an excluded key that sits inside a list element are not reported as an
exact match: the flag is false and the report is nonempty. -/
theorem excluded_key_counterexample :
    wfVal (Val.dict [("x", .list [.dict [(did, .prim "1")]])]) = true
    ∧ wfVal (Val.dict [("x", .list [.dict [(did, .prim "2")]])]) = true
    ∧ eraseDeep (Val.dict [("x", .list [.dict [(did, .prim "1")]])])
        = eraseDeep (Val.dict [("x", .list [.dict [(did, .prim "2")]])])
    ∧ Val.dict [("x", .list [.dict [(did, .prim "1")]])]
        ≠ Val.dict [("x", .list [.dict [(did, .prim "2")]])]
    ∧ deepCompare (Val.dict [("x", .list [.dict [(did, .prim "1")]])])
        (Val.dict [("x", .list [.dict [(did, .prim "2")]])]) = false
    ∧ findDiffsO id (Val.dict [("x", .list [.dict [(did, .prim "1")]])])
        (Val.dict [("x", .list [.dict [(did, .prim "2")]])]) "" ≠ [] := by
  refine ⟨by decide, by decide, by decide, by decide, ?_, ?_⟩
  · simp [deepCompare, cmpFields, cmpOne, keySetEq, filtKeys, keysOf, did, lookupD, pyEq,
      pyEqList, pyEqFields]
  · simp [findDiffsO, diffKeys, diffSeg, unionKeys, filtKeys, keysOf, did, lookupD, pyEq,
      pyEqList, pyEqFields, joinPath]

/-- C3 (amended): with the set-iteration order fixed, the difference report is
a pure function of the two inputs, so two invocations in one interpreter run
produce identical sequences; across admissible iteration orders (as across
interpreter runs with different hash seeds) the same entries are produced,
but only up to order of the sequence. -/
theorem findDiffs_deterministic_up_to_order (A B : Val) (path : String)
    (ord1 ord2 : List String → List String) (h1 : Adm ord1) (h2 : Adm ord2) :
    (findDiffsO ord1 A B path).Perm (findDiffsO ord2 A B path) :=
  findDiffsO_perm_aux (sizeOf A) A B (Nat.le_refl _) ord1 ord2 h1 h2 path

theorem findDiffs_deterministic_up_to_order_witness :
    Adm id ∧ Adm (fun l => l.reverse)
    ∧ (findDiffsO id (Val.dict [("a", .prim "1"), ("b", .prim "1")])
          (Val.dict [("a", .prim "2"), ("b", .prim "2")]) "").Perm
        (findDiffsO (fun l => l.reverse) (Val.dict [("a", .prim "1"), ("b", .prim "1")])
          (Val.dict [("a", .prim "2"), ("b", .prim "2")]) "") :=
  ⟨Adm_id, Adm_reverse,
    findDiffs_deterministic_up_to_order (Val.dict [("a", .prim "1"), ("b", .prim "1")])
      (Val.dict [("a", .prim "2"), ("b", .prim "2")]) "" id (fun l => l.reverse)
      Adm_id Adm_reverse⟩

/-- C3 (counterexample): the loop iterates a Python set of keys, whose order
for strings varies with the process hash seed; under the identity iteration
order and the reversed iteration order — both admissible permutations of the
key union — the same two inputs yield the same two entries in different
sequence, so the full report is not deterministic as a sequence. -/
theorem findDiffs_order_counterexample :
    Adm id ∧ Adm (fun l => l.reverse)
    ∧ findDiffsO id (Val.dict [("a", .prim "1"), ("b", .prim "1")])
          (Val.dict [("a", .prim "2"), ("b", .prim "2")]) ""
        ≠ findDiffsO (fun l => l.reverse) (Val.dict [("a", .prim "1"), ("b", .prim "1")])
          (Val.dict [("a", .prim "2"), ("b", .prim "2")]) "" := by
  refine ⟨Adm_id, Adm_reverse, ?_⟩
  have h1 : findDiffsO id (Val.dict [("a", .prim "1"), ("b", .prim "1")])
      (Val.dict [("a", .prim "2"), ("b", .prim "2")]) ""
      = [.valueMismatch "a" (.prim "1") (.prim "2"),
         .valueMismatch "b" (.prim "1") (.prim "2")] := by
    simp [findDiffsO, diffKeys, diffSeg, unionKeys, filtKeys, keysOf, did, lookupD, pyEq,
      joinPath]
  have h2 : findDiffsO (fun l => l.reverse) (Val.dict [("a", .prim "1"), ("b", .prim "1")])
      (Val.dict [("a", .prim "2"), ("b", .prim "2")]) ""
      = [.valueMismatch "b" (.prim "1") (.prim "2"),
         .valueMismatch "a" (.prim "1") (.prim "2")] := by
    simp [findDiffsO, diffKeys, diffSeg, unionKeys, filtKeys, keysOf, did, lookupD, pyEq,
      joinPath]
  rw [h1, h2]
  decide
